import Mathlib

/-!
A shallow embedding of the move-and-cleanup engine of file-mover.

The program flattens a directory tree: `FileMover.MoveFiles` counts the files
below the root (`CountFilesToMove`), moves each of them into the root
(`FileMover.traverseAndMove`, `MoveFile`, `moveFileAttempt`,
`getUniqueFilename`) and then removes the subdirectories
(`FileMover.deleteSubDirs`, `SortDirsByDepth`).

The embedding has three layers.

* Go strings are lists of characters (`GoString`); the functions of the
  packages `path`, `path/filepath`, `strings` and `fmt` that the program calls
  are written out for a Unix host (`os.PathSeparator = '/'`, no volume names).
* The operating system is a finite map from resolved paths to nodes (`FS`),
  with the calls of package `os` the program makes as state-passing functions
  that return Go errors (`GoError`).  A path is looked up element by element
  (`FS.namei`), so a call fails when a directory on the way is missing, is a
  regular file or may not be searched.  There are no symbolic links and the
  working directory is the filesystem root.
* The functions of `internal/utils/fileutils.go` and
  `internal/mover/mover.go` are translated statement by statement over those
  two layers.  Loops that Go does not bound take a fuel argument; `none`
  stands for a call that does not return.
-/

set_option autoImplicit false

/-! ## Go strings and the path functions -/

/-- A Go string, as the list of its characters. -/
abbrev GoString := List Char

/-- The constant `os.PathSeparator` of a Unix host. -/
def os.PathSeparator : Char := '/'

/-- The function `strings.Count(s, sep)` for a separator of one character: the number of
occurrences of `sep` in `s`. -/
def strings.Count (s : GoString) (sep : Char) : Nat := s.count sep

/-- The function `strings.Join(elems, "/")`. -/
def strings.JoinSlash (elems : List GoString) : GoString := ['/'].intercalate elems

/-- The path elements `Clean` reads: the pieces of the string between separators. -/
def pathElems (p : GoString) : List GoString := p.splitOn '/'

/-- One round of the element loop of `Clean`.  `out` holds the elements written so far,
the last one first.  An empty element and `.` are dropped; `..` removes the last
element written when there is one to backtrack over, is dropped at the root of a rooted
path and is kept otherwise; any other element is appended. -/
def Clean.step (rooted : Bool) (out : List GoString) (e : GoString) : List GoString :=
  if e = [] ∨ e = ['.'] then out
  else if e = ['.', '.'] then
    match out with
    | [] => if rooted then [] else [['.', '.']]
    | top :: rest => if top = ['.', '.'] then ['.', '.'] :: top :: rest else rest
  else e :: out

/-- The function `filepath.Clean` (and `path.Clean`, which is the same function on a host
whose separator is `/`): the shortest path equivalent to `p` by purely lexical
processing. -/
def filepath.Clean (p : GoString) : GoString :=
  if p = [] then ['.']
  else
    let rooted : Bool := p.head? = some '/'
    let out := (pathElems p).foldl (Clean.step rooted) []
    if rooted then '/' :: strings.JoinSlash out.reverse
    else if out = [] then ['.']
    else strings.JoinSlash out.reverse

/-- The function `filepath.Join`: the elements from the first non-empty one on are joined
with the separator and the result is cleaned; all elements empty gives the empty
string. -/
def filepath.Join (elem : List GoString) : GoString :=
  match elem.dropWhile (fun e => decide (e = [])) with
  | [] => []
  | rest => filepath.Clean (strings.JoinSlash rest)

/-- The function `path.Join`.  Its loop skips leading empty elements and from then on
appends every element after a slash, which is what `filepath.Join` does. -/
def path.Join (elem : List GoString) : GoString := filepath.Join elem

/-- The part of `p` up to and including its last separator (`p[:i+1]` for `i` the index of
the last slash, the empty string when there is none). -/
def uptoLastSlash (p : GoString) : GoString :=
  (p.reverse.dropWhile (fun c => decide (c ≠ '/'))).reverse

/-- The part of `p` after its last separator (`p[i+1:]`). -/
def afterLastSlash (p : GoString) : GoString :=
  (p.reverse.takeWhile (fun c => decide (c ≠ '/'))).reverse

/-- The function `filepath.Dir`: all but the last element of the path, cleaned. -/
def filepath.Dir (p : GoString) : GoString := filepath.Clean (uptoLastSlash p)

/-- The function `filepath.Base`: the last element of the path, after trailing
separators are stripped; `.` for the empty path and `/` for a path of separators
only. -/
def filepath.Base (p : GoString) : GoString :=
  if p = [] then ['.']
  else
    let stripped := (p.reverse.dropWhile (fun c => decide (c = '/'))).reverse
    let last := afterLastSlash stripped
    if last = [] then ['/'] else last

/-- The function `path.Split`: the directory (with its final slash) and the file. -/
def path.Split (p : GoString) : GoString × GoString := (uptoLastSlash p, afterLastSlash p)

/-- The function `path.Ext`: the suffix of the last element from its last dot on, empty
when the last element has no dot. -/
def path.Ext (p : GoString) : GoString :=
  let r := p.reverse
  let tail := r.takeWhile (fun c => decide (c ≠ '/') && decide (c ≠ '.'))
  match r.drop tail.length with
  | '.' :: _ => '.' :: tail.reverse
  | _ => []

/-- The digits loop of the `%d` verb: the decimal digits of `n` are put in front of
`acc`, the least significant first. -/
def formatDecimal.loop : Nat → Nat → GoString → GoString
  | 0, _, acc => acc
  | fuel + 1, n, acc =>
    if n / 10 = 0 then Char.ofNat (48 + n % 10) :: acc
    else formatDecimal.loop fuel (n / 10) (Char.ofNat (48 + n % 10) :: acc)

/-- The verb `%d` of `fmt` on a non-negative integer. -/
def formatDecimal (n : Nat) : GoString := formatDecimal.loop (n + 1) n []

/-- The call `fmt.Sprintf("%s_%d%s", name, counter, ext)`. -/
def fmt.Sprintf_s_d_s (name : GoString) (counter : Nat) (ext : GoString) : GoString :=
  name ++ '_' :: (formatDecimal counter ++ ext)

/-! ## Go errors -/

/-- The error numbers of the system calls in the model. -/
inductive Errno
  | ENOENT
  | EEXIST
  | EACCES
  | EPERM
  | EISDIR
  | ENOTDIR
  | ENOTEMPTY
  | EINVAL
  | EBUSY
deriving DecidableEq, Repr

/-- A non-nil value of Go's `error`.  `pathError` is `*fs.PathError` around a
`syscall.Errno`, which is what package `os` returns; `wrapError` is the value
`fmt.Errorf` builds for a format with `%w` (the text before the verb and the wrapped
error); `errorString` is an error without a wrapped error; `SkipDir` and `SkipAll` are
the two sentinels of `filepath`. -/
inductive GoError
  | pathError (op : String) (name : GoString) (errno : Errno)
  | wrapError (msg : String) (err : GoError)
  | errorString (msg : GoString)
  | SkipDir
  | SkipAll
deriving DecidableEq, Repr

/-- The function `underlyingError` of package `os`: it unwraps `*PathError` (and
`*LinkError`, `*SyscallError`, which do not occur here) and nothing else; in particular
it does not call `Unwrap`, so an error made by `fmt.Errorf` is returned as it is. -/
def os.underlyingError : GoError → Option Errno
  | .pathError _ _ errno => some errno
  | _ => none

/-- The function `os.IsExist`: the underlying error is `EEXIST` or `ENOTEMPTY`. -/
def os.IsExist : Option GoError → Bool
  | none => false
  | some err =>
    match os.underlyingError err with
    | some errno => decide (errno = Errno.EEXIST) || decide (errno = Errno.ENOTEMPTY)
    | none => false

/-- The function `os.IsNotExist`: the underlying error is `ENOENT`. -/
def os.IsNotExist : Option GoError → Bool
  | none => false
  | some err =>
    match os.underlyingError err with
    | some errno => decide (errno = Errno.ENOENT)
    | none => false

/-- The function `os.IsPermission`: the underlying error is `EACCES` or `EPERM`. -/
def os.IsPermission : Option GoError → Bool
  | none => false
  | some err =>
    match os.underlyingError err with
    | some errno => decide (errno = Errno.EACCES) || decide (errno = Errno.EPERM)
    | none => false

/-- The errno at the bottom of a chain of wrapped errors (what `errors.Is` would look
at). The program does not call it; the theorems use it to say what caused a failure. -/
def GoError.cause : GoError → Option Errno
  | .pathError _ _ errno => some errno
  | .wrapError _ err => err.cause
  | _ => none

/-! ## The filesystem -/

/-- The permission bits of a node: read, write and, for a directory, search. -/
structure Mode where
  r : Bool
  w : Bool
  x : Bool
deriving DecidableEq, Repr

/-- A node of the filesystem: a regular file with its content, or a directory. -/
inductive Node
  | file (content : GoString) (mode : Mode)
  | dir (mode : Mode)
deriving DecidableEq, Repr

/-- A resolved path: the names from the filesystem root down to the node. -/
abbrev Key := List GoString

/-- The state of the filesystem: the nodes that exist, each under its resolved path. The
root directory is the node under the empty key. -/
structure FS where
  nodes : List (Key × Node)
deriving DecidableEq, Repr

/-- The key a path stands for, read off the path alone: empty elements and `.` are
skipped, `..` steps back to the parent (and stays at the root).  It is what the lookup
`FS.namei` returns when the lookup succeeds; whether it succeeds depends on the
state. -/
def resolve (name : GoString) : Key := ((pathElems name).foldl (Clean.step true) []).reverse

/-- The node under a key, if one exists. -/
def FS.lookup (fs : FS) (k : Key) : Option Node :=
  (fs.nodes.find? (fun e => decide (e.1 = k))).map Prod.snd

/-- The state without the node under `k`. -/
def FS.erase (fs : FS) (k : Key) : FS := ⟨fs.nodes.filter (fun e => decide (e.1 ≠ k))⟩

/-- The state with `n` as the node under `k`. -/
def FS.insert (fs : FS) (k : Key) (n : Node) : FS := ⟨(fs.erase k).nodes ++ [(k, n)]⟩

/-- The names of the entries of the directory under `k`. -/
def FS.children (fs : FS) (k : Key) : List GoString :=
  fs.nodes.filterMap (fun e => if e.1.dropLast = k then e.1.getLast? else none)

/-- Whether `k` is a directory. -/
def FS.isDir (fs : FS) (k : Key) : Bool :=
  match fs.lookup k with
  | some (Node.dir _) => true
  | _ => false

/-- Whether `k` is a directory in which names may be looked up. -/
def FS.dirSearchable (fs : FS) (k : Key) : Bool :=
  match fs.lookup k with
  | some (Node.dir m) => m.x
  | _ => false

/-- Whether `k` is a directory in which entries may be created and removed. -/
def FS.dirWritable (fs : FS) (k : Key) : Bool :=
  match fs.lookup k with
  | some (Node.dir m) => m.w && m.x
  | _ => false

/-- Whether `k` is a directory whose entries may be listed and reached. -/
def FS.dirReadable (fs : FS) (k : Key) : Bool :=
  match fs.lookup k with
  | some (Node.dir m) => m.r && m.x
  | _ => false

/-- One step of the path lookup of the kernel, on the directory reached so far (`cur`, the
last name first) and the next element of the path.  The element is looked up in that
directory, so the directory has to exist (`ENOENT`), be a directory (`ENOTDIR`) and,
unless the element is empty, be searchable (`EACCES`); then an empty element and `.`
stay, `..` steps to the parent and a name steps down, whether or not it exists. -/
def FS.namei.step (fs : FS) (acc : Except Errno (List GoString)) (e : GoString) :
    Except Errno (List GoString) :=
  match acc with
  | .error errno => .error errno
  | .ok cur =>
    match fs.lookup cur.reverse with
    | none => .error .ENOENT
    | some (Node.file _ _) => .error .ENOTDIR
    | some (Node.dir m) =>
      if e = [] ∨ m.x = true then .ok (Clean.step true cur e) else .error .EACCES

/-- The path lookup of the kernel, for a filesystem without symbolic links and with the
working directory at the root: the elements of the path are looked up one after the
other, and the result is the key of the last one, which need not exist. -/
def FS.namei (fs : FS) (name : GoString) : Except Errno Key :=
  match (pathElems name).foldl (FS.namei.step fs) (.ok []) with
  | .error errno => .error errno
  | .ok cur => .ok cur.reverse

/-- The path lookup at the start of a call `op` of package `os`, with the error the call
returns when it fails; the empty path does not exist. -/
def FS.find (fs : FS) (op : String) (name : GoString) : Except GoError Key :=
  if name = [] then .error (.pathError op name .ENOENT)
  else
    match fs.namei name with
    | .error errno => .error (.pathError op name errno)
    | .ok k => .ok k

/-- The value of `os.FileInfo` the program looks at. -/
structure FileInfo where
  Name : GoString
  IsDir : Bool
deriving DecidableEq, Repr

/-- An open file (`*os.File`): the node it refers to and the name it was opened by. -/
structure File where
  key : Key
  name : GoString
deriving DecidableEq, Repr

/-- The function `os.Lstat`. -/
def os.Lstat (fs : FS) (name : GoString) : Except GoError FileInfo :=
  match fs.find "lstat" name with
  | .error err => .error err
  | .ok k =>
    match fs.lookup k with
    | none => .error (.pathError "lstat" name .ENOENT)
    | some (Node.dir _) => .ok ⟨filepath.Base name, true⟩
    | some (Node.file _ _) => .ok ⟨filepath.Base name, false⟩

/-- The function `os.Stat`, which is `os.Lstat` where there are no symbolic links. -/
def os.Stat (fs : FS) (name : GoString) : Except GoError FileInfo :=
  match fs.find "stat" name with
  | .error err => .error err
  | .ok k =>
    match fs.lookup k with
    | none => .error (.pathError "stat" name .ENOENT)
    | some (Node.dir _) => .ok ⟨filepath.Base name, true⟩
    | some (Node.file _ _) => .ok ⟨filepath.Base name, false⟩

/-- The function `os.Open` (`O_RDONLY`): the node has to exist and be readable.  A
directory can be opened; reading from it fails. -/
def os.Open (fs : FS) (name : GoString) : Except GoError File :=
  match fs.find "open" name with
  | .error err => .error err
  | .ok k =>
    match fs.lookup k with
    | none => .error (.pathError "open" name .ENOENT)
    | some (Node.dir m) =>
      if m.r then .ok ⟨k, name⟩ else .error (.pathError "open" name .EACCES)
    | some (Node.file _ m) =>
      if m.r then .ok ⟨k, name⟩ else .error (.pathError "open" name .EACCES)

/-- The function `os.Create`, which is `OpenFile(name, O_RDWR|O_CREATE|O_TRUNC, 0666)`: the
flags do not include `O_EXCL`, so a regular file that already exists under the name is
opened and truncated to length zero; a file that does not exist is created in its
parent directory, with mode `rw-`. -/
def os.Create (fs : FS) (name : GoString) : Except GoError (FS × File) :=
  match fs.find "open" name with
  | .error err => .error err
  | .ok k =>
    match fs.lookup k with
    | some (Node.dir _) => .error (.pathError "open" name .EISDIR)
    | some (Node.file _ m) =>
      if m.r && m.w then .ok (fs.insert k (Node.file [] m), ⟨k, name⟩)
      else .error (.pathError "open" name .EACCES)
    | none =>
      if k = [] then .error (.pathError "open" name .ENOENT)
      else
        match fs.lookup k.dropLast with
        | none => .error (.pathError "open" name .ENOENT)
        | some (Node.file _ _) => .error (.pathError "open" name .ENOTDIR)
        | some (Node.dir m) =>
          if m.w && m.x then .ok (fs.insert k (Node.file [] ⟨true, true, false⟩), ⟨k, name⟩)
          else .error (.pathError "open" name .EACCES)

/-- The call `io.Copy(dst, src)`: what can be read from `src` in the current state is
written to `dst` at its offset, which is the end of what was written through it. -/
def ioCopy (fs : FS) (dst src : File) : Except GoError FS :=
  match fs.lookup src.key with
  | some (Node.file content _) =>
    match fs.lookup dst.key with
    | some (Node.file written m) => .ok (fs.insert dst.key (Node.file (written ++ content) m))
    | _ => .error (.pathError "write" dst.name .EINVAL)
  | some (Node.dir _) => .error (.pathError "read" src.name .EISDIR)
  | none => .error (.pathError "read" src.name .EINVAL)

/-- The method `(*os.File).Close`. Closing does not fail in the model. -/
def File.Close (_f : File) : Option GoError := none

/-- The function `os.Remove`: it needs a parent directory that may be written and
searched, removes a file, and removes a directory only when it is empty. -/
def os.Remove (fs : FS) (name : GoString) : Except GoError FS :=
  match fs.find "remove" name with
  | .error err => .error err
  | .ok k =>
    match fs.lookup k with
    | none => .error (.pathError "remove" name .ENOENT)
    | some node =>
      if k = [] then .error (.pathError "remove" name .EBUSY)
      else if !fs.dirWritable k.dropLast then .error (.pathError "remove" name .EACCES)
      else
        match node with
        | Node.file _ _ => .ok (fs.erase k)
        | Node.dir _ =>
          if fs.children k = [] then .ok (fs.erase k)
          else .error (.pathError "remove" name .ENOTEMPTY)

/-- Whether `k` is `e` or lies above it. -/
def Key.above (k e : Key) : Bool := k.isPrefixOf e

/-- Whether `os.RemoveAll` started at `k` can remove the node under `e`: it is not the
filesystem root, its parent directory may be written and searched, and every directory
from `k` down to its parent can be listed and searched. -/
def FS.removable (fs : FS) (k e : Key) : Bool :=
  decide (e ≠ []) && fs.dirWritable e.dropLast &&
    (List.range (e.length - k.length)).all (fun i => fs.dirReadable (e.take (k.length + i)))

/-- What `os.RemoveAll` leaves when it cannot remove everything: going through the nodes
below `k` from the deepest up, each one that can be removed and has no entry left is
removed. -/
def FS.removeWhatCan (fs : FS) (k : Key) : FS :=
  (((fs.nodes.map Prod.fst).filter (Key.above k)).insertionSort
      (fun a b => b.length ≤ a.length)).foldl
    (fun s e => if fs.removable k e && decide (s.children e = []) then s.erase e else s) fs

/-- The function `endsWithDot` of package `os`. -/
def os.endsWithDot (name : GoString) : Bool :=
  decide (name = ['.']) || decide (name.reverse.take 2 = ['.', '/'])

/-- The function `os.RemoveAll`: it removes the node at the path and everything below it,
files included, and returns nil when the path does not exist. -/
def os.RemoveAll (fs : FS) (name : GoString) : FS × Option GoError :=
  if name = [] then (fs, none)
  else if os.endsWithDot name then (fs, some (.pathError "RemoveAll" name .EINVAL))
  else
    match fs.namei name with
    | .error errno =>
      if errno = Errno.ENOENT then (fs, none)
      else (fs, some (.pathError "unlinkat" name errno))
    | .ok k =>
      if fs.lookup k = none then (fs, none)
      else if ((fs.nodes.map Prod.fst).filter (Key.above k)).all (fs.removable k) then
        (⟨fs.nodes.filter (fun e => !Key.above k e.1)⟩, none)
      else (fs.removeWhatCan k, some (.pathError "unlinkat" name .EACCES))

/-- The function `sort.Strings` on the names of a directory. -/
def sort.Strings (names : List GoString) : List GoString :=
  names.insertionSort (fun a b => a ≤ b)

/-- The function `readDirNames` of `filepath`: the names of the entries of the directory,
sorted. -/
def filepath.readDirNames (fs : FS) (dirname : GoString) : Except GoError (List GoString) :=
  match fs.find "open" dirname with
  | .error err => .error err
  | .ok k =>
    match fs.lookup k with
    | none => .error (.pathError "open" dirname .ENOENT)
    | some (Node.file _ _) => .error (.pathError "readdirent" dirname .ENOTDIR)
    | some (Node.dir m) =>
      if m.r then .ok (sort.Strings (fs.children k))
      else .error (.pathError "open" dirname .EACCES)

/-! ## `filepath.Walk` -/

/-- The type `filepath.WalkFunc`, as a function on the state the walk threads through: the
filesystem and the variables the closure captures.  `none` is a call that does not
return. -/
abbrev WalkFunc (α : Type) :=
  GoString → Option FileInfo → Option GoError → FS × α → Option ((FS × α) × Option GoError)

/-- The loop `for _, name := range names` of `walk`; `walkRec` is the recursive call. -/
def filepath.walkNames {α : Type}
    (walkRec : GoString → FileInfo → FS × α → Option ((FS × α) × Option GoError))
    (walkFn : WalkFunc α) (dir : GoString) :
    List GoString → FS × α → Option ((FS × α) × Option GoError)
  | [], s => some (s, none)
  | name :: names, s =>
    match os.Lstat s.1 (filepath.Join [dir, name]) with
    | .error err =>
      match walkFn (filepath.Join [dir, name]) none (some err) s with
      | none => none
      | some (s1, none) => filepath.walkNames walkRec walkFn dir names s1
      | some (s1, some e) =>
        if e ≠ GoError.SkipDir then some (s1, some e)
        else filepath.walkNames walkRec walkFn dir names s1
    | .ok fileInfo =>
      match walkRec (filepath.Join [dir, name]) fileInfo s with
      | none => none
      | some (s1, none) => filepath.walkNames walkRec walkFn dir names s1
      | some (s1, some e) =>
        if !fileInfo.IsDir || decide (e ≠ GoError.SkipDir) then some (s1, some e)
        else filepath.walkNames walkRec walkFn dir names s1

/-- The function `walk` of `filepath`: the names of a directory are read before the
function is called on it, and each entry is looked up when its turn comes.  The first
argument bounds the depth of the recursion. -/
def filepath.walk {α : Type} (walkFn : WalkFunc α) :
    Nat → GoString → FileInfo → FS × α → Option ((FS × α) × Option GoError)
  | 0, _, _, _ => none
  | fuel + 1, name, info, s =>
    if !info.IsDir then walkFn name (some info) none s
    else
      match filepath.readDirNames s.1 name with
      | .error err =>
        match walkFn name (some info) (some err) s with
        | none => none
        | some (s1, err1) => some (s1, err1)
      | .ok names =>
        match walkFn name (some info) none s with
        | none => none
        | some (s1, some err1) => some (s1, some err1)
        | some (s1, none) =>
          filepath.walkNames (filepath.walk walkFn fuel) walkFn name names s1

/-- The function `filepath.Walk`. -/
def filepath.Walk {α : Type} (fuel : Nat) (root : GoString) (fn : WalkFunc α) (s : FS × α) :
    Option ((FS × α) × Option GoError) :=
  let r :=
    match os.Lstat s.1 root with
    | .error err => fn root none (some err) s
    | .ok info => filepath.walk fn fuel root info s
  match r with
  | none => none
  | some (s1, err) =>
    if err = some GoError.SkipDir ∨ err = some GoError.SkipAll then some (s1, none)
    else some (s1, err)

/-! ## `sort.Slice` -/

/-- The inner loop of `insertionSortLessFunc`: the new element moves towards the front
as long as it is less than the element before it.  `sorted` is the part already in
order, the last element first. -/
def sort.insertBack {α : Type} (less : α → α → Bool) (x : α) : List α → List α
  | [] => [x]
  | y :: sorted => if less x y then y :: sort.insertBack less x sorted else x :: y :: sorted

/-- The function `sort.Slice`, as the insertion sort `insertionSortLessFunc` that Go runs on
short slices.  On longer slices Go runs a pattern-defeating quicksort, which returns a
permutation that is in order under `less` as well; equal elements may then come out in
another order. -/
def sort.Slice {α : Type} (xs : List α) (less : α → α → Bool) : List α :=
  (xs.foldl (fun sorted x => sort.insertBack less x sorted) []).reverse

/-! ## `internal/utils/fileutils.go` -/

/-- The function literal that `CountFilesToMove` passes to `filepath.Walk`; the variable
`count` it captures is the second component of the state. -/
def CountFilesToMove.fn (rootDir : GoString) : WalkFunc Nat :=
  fun p info err s =>
    match err with
    | some e => some (s, some e)
    | none =>
      match info with
      | none => none
      | some info =>
        if !info.IsDir && decide (filepath.Dir p ≠ rootDir) then some ((s.1, s.2 + 1), none)
        else some (s, none)

/-- The function `CountFilesToMove`. -/
def CountFilesToMove (fuel : Nat) (fs : FS) (rootDir : GoString) : Option (Nat × Option GoError) :=
  match filepath.Walk fuel rootDir (CountFilesToMove.fn rootDir) (fs, 0) with
  | none => none
  | some (s, err) => some (s.2, err)

/-- The loop of `getUniqueFilename`: the candidates `name_1.ext`, `name_2.ext`, ... are
probed with `os.Stat` until one of the probes reports that the name does not exist. -/
def getUniqueFilename.loop (fs : FS) (dir name ext : GoString) : Nat → Nat → Option GoString
  | 0, _ => none
  | fuel + 1, counter =>
    match os.Stat fs (path.Join [dir, fmt.Sprintf_s_d_s name counter ext]) with
    | .error err =>
      if os.IsNotExist (some err) then some (path.Join [dir, fmt.Sprintf_s_d_s name counter ext])
      else getUniqueFilename.loop fs dir name ext fuel (counter + 1)
    | .ok _ => getUniqueFilename.loop fs dir name ext fuel (counter + 1)

/-- The function `getUniqueFilename`; `fuel` bounds the number of probes. -/
def getUniqueFilename (fuel : Nat) (fs : FS) (filepath : GoString) : Option GoString :=
  let dir := (path.Split filepath).1
  let file := (path.Split filepath).2
  let ext := path.Ext file
  let name := file.take (file.length - ext.length)
  getUniqueFilename.loop fs dir name ext fuel 1

/-- The function `moveFileAttempt`. -/
def moveFileAttempt (fs : FS) (src dst : GoString) : FS × Option GoError :=
  match os.Open fs src with
  | .error err => (fs, some (.wrapError "failed to open source file: " err))
  | .ok sourceFile =>
    match os.Create fs dst with
    | .error err => (fs, some (.wrapError "failed to create destination file: " err))
    | .ok (fs1, destFile) =>
      match ioCopy fs1 destFile sourceFile with
      | .error err => (fs1, some (.wrapError "failed to copy file contents: " err))
      | .ok fs2 =>
        match File.Close sourceFile with
        | some err => (fs2, some (.wrapError "failed to close source file: " err))
        | none =>
          match File.Close destFile with
          | some err => (fs2, some (.wrapError "failed to close destination file: " err))
          | none =>
            match os.Remove fs2 src with
            | .error err =>
              -- the destination is removed again; the result of that call is dropped
              match os.Remove fs2 dst with
              | .error _ => (fs2, some (.wrapError "failed to remove source file: " err))
              | .ok fs3 => (fs3, some (.wrapError "failed to remove source file: " err))
            | .ok fs3 => (fs3, none)

/-- What a call of `MoveFile` did, besides its effect on the filesystem: the calls of
`moveFileAttempt` in order, each with the destination it was given and what it
returned, and the backoff delays slept, in milliseconds. -/
structure MoveTrace where
  attempts : List (GoString × Option GoError)
  sleeps : List Nat
deriving DecidableEq, Repr

/-- The variable `maxRetries` of `MoveFile`. -/
def maxRetries : Nat := 5

/-- The variable `baseDelay` of `MoveFile`, in milliseconds. -/
def baseDelay : Nat := 100

/-- The loop `for attempt := 0; attempt < maxRetries; attempt++` of `MoveFile`, with
`remaining = maxRetries - attempt` rounds to go, followed by the final `return`.
`getUniqueFilename` is given one probe more than there are nodes: the names that exist
cannot use up more, so that is enough whenever the probes end at all. -/
def MoveFile.loop (src : GoString) :
    Nat → Nat → FS → GoString → MoveTrace → Option ((FS × Option GoError) × MoveTrace)
  | 0, _, fs, _, tr =>
    some ((fs, some (.errorString
      ("failed to move file after ".toList ++ formatDecimal maxRetries ++ " attempts".toList))), tr)
  | remaining + 1, attempt, fs, dst, tr =>
    match moveFileAttempt fs src dst with
    | (fs1, none) => some ((fs1, none), ⟨tr.attempts ++ [(dst, none)], tr.sleeps⟩)
    | (fs1, some err) =>
      if os.IsExist (some err) then
        match getUniqueFilename (fs1.nodes.length + 1) fs1 dst with
        | none => none
        | some dst1 =>
          MoveFile.loop src remaining (attempt + 1) fs1 dst1
            ⟨tr.attempts ++ [(dst, some err)], tr.sleeps⟩
      else if os.IsPermission (some err) then
        some ((fs1, some err), ⟨tr.attempts ++ [(dst, some err)], tr.sleeps⟩)
      else
        MoveFile.loop src remaining (attempt + 1) fs1 dst
          ⟨tr.attempts ++ [(dst, some err)], tr.sleeps ++ [baseDelay * 2 ^ attempt]⟩

/-- The function `MoveFile`. -/
def MoveFile (fs : FS) (src dst : GoString) : Option ((FS × Option GoError) × MoveTrace) :=
  MoveFile.loop src maxRetries 0 fs dst ⟨[], []⟩

/-- The comparison `SortDirsByDepth` sorts by: more separators first. -/
def SortDirsByDepth.less (a b : GoString) : Bool :=
  decide (strings.Count a os.PathSeparator > strings.Count b os.PathSeparator)

/-- The function `SortDirsByDepth`; the slice it sorts in place is returned. -/
def SortDirsByDepth (dirs : List GoString) : List GoString :=
  sort.Slice dirs SortDirsByDepth.less

/-- The function `RemoveEmptyDir`. -/
def RemoveEmptyDir (fs : FS) (dir : GoString) : Except GoError FS := os.Remove fs dir

/-! ## `internal/mover/mover.go` -/

/-- The progress bar of `pterm`, as far as the program uses it. -/
structure ProgressbarPrinter where
  Total : Nat
  Current : Nat
deriving DecidableEq, Repr

/-- The type `FileMover`; `Progress` is a pointer, nil until `MoveFiles` sets it. -/
structure FileMover where
  RootDir : GoString
  Progress : Option ProgressbarPrinter
deriving DecidableEq, Repr

/-- The function `NewFileMover`: the root is stored as it is given. -/
def NewFileMover (rootDir : GoString) : FileMover := ⟨rootDir, none⟩

/-- The function literal that `deleteSubDirs` passes to `filepath.Walk`; the slice
`dirsToDelete` it appends to is the second component of the state. -/
def FileMover.collectDirs.fn (rootDir : GoString) : WalkFunc (List GoString) :=
  fun p info err s =>
    match err with
    | some e => some (s, some e)
    | none =>
      match info with
      | none => none
      | some info =>
        if info.IsDir && decide (p ≠ rootDir) then some ((s.1, s.2 ++ [p]), none)
        else some (s, none)

/-- The walk of `deleteSubDirs`, which collects the directories other than the root in
`dirsToDelete`. -/
def FileMover.collectDirs (fm : FileMover) (fuel : Nat) (fs : FS) :
    Option ((FS × List GoString) × Option GoError) :=
  filepath.Walk fuel fm.RootDir (FileMover.collectDirs.fn fm.RootDir) (fs, [])

/-- The loop `for _, dir := range dirsToDelete` of `deleteSubDirs`. -/
def FileMover.removeDirs : List GoString → FS → FS × Option GoError
  | [], fs => (fs, none)
  | dir :: dirs, fs =>
    match os.RemoveAll fs dir with
    | (fs1, some err) =>
      (fs1, some (.wrapError ("error deleting directory " ++ String.mk dir ++ ": ") err))
    | (fs1, none) => FileMover.removeDirs dirs fs1

/-- The method `deleteSubDirs` (the delay at its start has no effect on the state). -/
def FileMover.deleteSubDirs (fm : FileMover) (fuel : Nat) (fs : FS) :
    Option (FS × Option GoError) :=
  match fm.collectDirs fuel fs with
  | none => none
  | some ((fs1, _), some err) => some (fs1, some (.wrapError "error walking directory: " err))
  | some ((fs1, dirsToDelete), none) =>
    some (FileMover.removeDirs (SortDirsByDepth dirsToDelete) fs1)

/-- The function literal that `traverseAndMove` passes to `filepath.Walk`; the receiver it
captures, whose progress bar it increments, is the second component of the state. -/
def FileMover.traverseAndMove.fn (rootDir : GoString) : WalkFunc FileMover :=
  fun p info err s =>
    match err with
    | some e => some (s, some e)
    | none =>
      match info with
      | none => none
      | some info =>
        if !info.IsDir && decide (filepath.Dir p ≠ rootDir) then
          match MoveFile s.1 p (filepath.Join [rootDir, filepath.Base p]) with
          | none => none
          | some ((fs1, some e), _) => some ((fs1, s.2), some e)
          | some ((fs1, none), _) =>
            match s.2.Progress with
            | none => none
            | some bar =>
              some ((fs1, ⟨s.2.RootDir, some ⟨bar.Total, bar.Current + 1⟩⟩), none)
        else some (s, none)

/-- The method `traverseAndMove`. -/
def FileMover.traverseAndMove (fm : FileMover) (fuel : Nat) (fs : FS) :
    Option ((FS × FileMover) × Option GoError) :=
  filepath.Walk fuel fm.RootDir (FileMover.traverseAndMove.fn fm.RootDir) (fs, fm)

/-- The method `MoveFiles`. -/
def FileMover.MoveFiles (fm : FileMover) (fuel : Nat) (fs : FS) :
    Option ((FS × FileMover) × Option GoError) :=
  match CountFilesToMove fuel fs fm.RootDir with
  | none => none
  | some (_, some err) => some ((fs, fm), some (.wrapError "error counting files: " err))
  | some (totalFiles, none) =>
    match FileMover.traverseAndMove ⟨fm.RootDir, some ⟨totalFiles, 0⟩⟩ fuel fs with
    | none => none
    | some ((fs1, fm1), some err) =>
      some ((fs1, fm1), some (.wrapError "error moving files: " err))
    | some ((fs1, fm1), none) =>
      match fm1.deleteSubDirs fuel fs1 with
      | none => none
      | some (fs2, some err) =>
        some ((fs2, fm1), some (.wrapError "error deleting subdirectories: " err))
      | some (fs2, none) => some ((fs2, fm1), none)

/-! ## Well-formed states -/

/-- Whether `e` can be the name of a directory entry: it is not empty, not `.` or `..`,
and has no separator in it. -/
def isEntryName (e : GoString) : Bool :=
  decide (e ≠ []) && decide (e ≠ ['.']) && decide (e ≠ ['.', '.']) && decide ('/' ∉ e)

/-- The number a string of decimal digits stands for. -/
def decodeDecimal (s : GoString) : Nat := s.foldl (fun v c => 10 * v + (c.toNat - 48)) 0

/-- The candidate that `getUniqueFilename` probes in the round with the given counter:
the directory of the path joined with `name_counter.ext`. -/
def getUniqueFilename.candidate (filepath : GoString) (counter : Nat) : GoString :=
  path.Join [(path.Split filepath).1,
    fmt.Sprintf_s_d_s
      ((path.Split filepath).2.take
        ((path.Split filepath).2.length - (path.Ext (path.Split filepath).2).length))
      counter (path.Ext (path.Split filepath).2)]

/-- Whether a failure is transient in the sense of the retry policy: what caused it is
neither "name exists" (`EEXIST`, `ENOTEMPTY`) nor "permission denied" (`EACCES`,
`EPERM`). -/
def GoError.transient (e : GoError) : Bool :=
  match e.cause with
  | some errno =>
    decide (errno ≠ Errno.EEXIST) && decide (errno ≠ Errno.ENOTEMPTY) &&
      decide (errno ≠ Errno.EACCES) && decide (errno ≠ Errno.EPERM)
  | none => true

/-- The state of the filesystem after `n` calls `moveFileAttempt(src, dst)` in a row, the
first of them made in the state `fs` and each of the others in the state the call
before it left. -/
def attemptStates (src dst : GoString) : Nat → FS → FS
  | 0, fs => fs
  | n + 1, fs => attemptStates src dst n (moveFileAttempt fs src dst).1

/-- What the call number `i`, counted from 0, of such a row of calls
`moveFileAttempt(src, dst)` returns. -/
def attemptResult (src dst : GoString) (fs : FS) (i : Nat) : Option GoError :=
  (moveFileAttempt (attemptStates src dst i fs) src dst).2

/-- Whether a value returned by `moveFileAttempt` is a transient failure: an error, and
one that is transient. -/
def isTransientFailure : Option GoError → Bool
  | some e => e.transient
  | none => false

/-! ## States for the examples -/

/-- The mode of a regular file that may be read and written. -/
def Mode.rw : Mode := ⟨true, true, false⟩

/-- The mode of a directory that may be listed, written and searched. -/
def Mode.rwx : Mode := ⟨true, true, true⟩

/-- A tree with a collision: `root/a.txt` holds `D` and `root/sub/a.txt` holds `S`. -/
def collisionFS : FS :=
  ⟨[([], .dir .rwx), (["root".toList], .dir .rwx),
    (["root".toList, "a.txt".toList], .file "D".toList .rw),
    (["root".toList, "sub".toList], .dir .rwx),
    (["root".toList, "sub".toList, "a.txt".toList], .file "S".toList .rw)]⟩

/-- A tree whose only file, `root/a.txt` with content `D`, lies directly in the root. -/
def rootFileFS : FS :=
  ⟨[([], .dir .rwx), (["root".toList], .dir .rwx),
    (["root".toList, "a.txt".toList], .file "D".toList .rw)]⟩

/-- A tree with two files of the same base name: `root/s1/a.txt` holds `1` and
`root/s2/a.txt` holds `2`. -/
def sameNameFS : FS :=
  ⟨[([], .dir .rwx), (["root".toList], .dir .rwx),
    (["root".toList, "s1".toList], .dir .rwx),
    (["root".toList, "s1".toList, "a.txt".toList], .file "1".toList .rw),
    (["root".toList, "s2".toList], .dir .rwx),
    (["root".toList, "s2".toList, "a.txt".toList], .file "2".toList .rw)]⟩

/-- A tree in which the source `root/sub/a.txt` may not be read. -/
def unreadableFS : FS :=
  ⟨[([], .dir .rwx), (["root".toList], .dir .rwx), (["root".toList, "sub".toList], .dir .rwx),
    (["root".toList, "sub".toList, "a.txt".toList], .file "S".toList ⟨false, true, false⟩)]⟩

/-- A tree in which the directory of the source, `root/sub`, may not be written, so that
`root/sub/a.txt` cannot be removed. -/
def readOnlyDirFS : FS :=
  ⟨[([], .dir .rwx), (["root".toList], .dir .rwx),
    (["root".toList, "sub".toList], .dir ⟨true, false, true⟩),
    (["root".toList, "sub".toList, "a.txt".toList], .file "S".toList .rw)]⟩

/-- A tree without the source `root/sub/a.txt`. -/
def missingSourceFS : FS :=
  ⟨[([], .dir .rwx), (["root".toList], .dir .rwx), (["root".toList, "sub".toList], .dir .rwx)]⟩

/-- The tree of the tests: two files in the root, five below it in three
subdirectories. -/
def testTreeFS : FS :=
  ⟨[([], .dir .rwx), (["tmp".toList], .dir .rwx),
    (["tmp".toList, "subdir1".toList], .dir .rwx),
    (["tmp".toList, "subdir2".toList], .dir .rwx),
    (["tmp".toList, "subdir1".toList, "nesteddir".toList], .dir .rwx),
    (["tmp".toList, "root1.txt".toList], .file "test content".toList .rw),
    (["tmp".toList, "root2.txt".toList], .file "test content".toList .rw),
    (["tmp".toList, "subdir1".toList, "file1.txt".toList], .file "test content".toList .rw),
    (["tmp".toList, "subdir1".toList, "file2.txt".toList], .file "test content".toList .rw),
    (["tmp".toList, "subdir2".toList, "file3.txt".toList], .file "test content".toList .rw),
    (["tmp".toList, "subdir1".toList, "nesteddir".toList, "file4.txt".toList],
      .file "test content".toList .rw),
    (["tmp".toList, "subdir1".toList, "nesteddir".toList, "file5.txt".toList],
      .file "test content".toList .rw)]⟩

/-- A well-formed state: no key occurs twice, every name in a key can be the name of a
directory entry, and every node other than the filesystem root lies in a directory. -/
def FS.WF (fs : FS) : Prop :=
  (fs.nodes.map Prod.fst).Nodup ∧
  (∀ e ∈ fs.nodes, ∀ c ∈ e.1, isEntryName c = true) ∧
  (∀ e ∈ fs.nodes, e.1 ≠ [] → fs.isDir e.1.dropLast = true)

instance (fs : FS) : Decidable fs.WF := by
  unfold FS.WF
  infer_instance

/-- A path that `filepath.Walk` made for an entry: a directory path joined with the name
of the entry. -/
def IsJoined (d : GoString) : Prop :=
  ∃ q n, isEntryName n = true ∧ d = filepath.Join [q, n]

/-- The lookup of a path that consists of names only, from the directory `cur` down:
each name is looked up in the directory the names before it lead to. -/
def FS.descend (fs : FS) : Key → List GoString → Except Errno Key
  | cur, [] => .ok cur
  | cur, n :: ns =>
    match fs.lookup cur with
    | none => .error .ENOENT
    | some (Node.file _ _) => .error .ENOTDIR
    | some (Node.dir m) => if m.x then FS.descend fs (cur ++ [n]) ns else .error .EACCES

/-- What a walk of `deleteSubDirs` has done when it returns `r`, for a walk that started
with `acc` collected, at the path that resolves to `resolve R ++ s`: the filesystem is
as before; an error is one of package `os`; what was appended to `acc` are paths of
directories strictly below the root, each made by `filepath.Join`; and after a walk
without error they include a path for every directory at or below the starting point,
the root left out. -/
def CollectPost (R : GoString) (fs : FS) (s : Key) (acc : List GoString)
    (r : (FS × List GoString) × Option GoError) : Prop :=
  r.1.1 = fs ∧ (∀ e, r.2 = some e → ∃ op n errno, e = GoError.pathError op n errno) ∧
  ∃ new, r.1.2 = acc ++ new ∧
    (∀ d ∈ new, IsJoined d ∧
      ∃ t, t ≠ [] ∧ resolve d = resolve R ++ t ∧ fs.isDir (resolve R ++ t) = true) ∧
    (r.2 = none → ∀ t, s ++ t ≠ [] → fs.isDir (resolve R ++ (s ++ t)) = true →
      ∃ d ∈ new, resolve d = resolve R ++ (s ++ t))

/-- Whether a node lets `deleteSubDirs` through: a directory has to be readable, to be
listed, writable, for its entries to be removed, and searchable, for them to be
reached. -/
def Node.permissive : Node → Bool
  | .dir m => m.r && m.w && m.x
  | .file _ _ => true

/-- Whether the directory under `k` can be reached: it and every directory above it exist
and may be searched. -/
def FS.reachable (fs : FS) (k : Key) : Bool :=
  (List.range (k.length + 1)).all (fun i => fs.dirSearchable (k.take i))

/-- A tree in which `root/a.txt` is a regular file, for the path `root/a.txt/b.txt` that
runs through it. -/
def fileInTheWayFS : FS :=
  ⟨[([], .dir .rwx), (["root".toList], .dir .rwx),
    (["root".toList, "a.txt".toList], .file "D".toList .rw)]⟩

/-- A tree in which `root/a.txt` and `root/a_1.txt` exist. -/
def takenNamesFS : FS :=
  ⟨[([], .dir .rwx), (["root".toList], .dir .rwx),
    (["root".toList, "a.txt".toList], .file "D".toList .rw),
    (["root".toList, "a_1.txt".toList], .file "E".toList .rw)]⟩

/-! # Theorems -/

/-! ## Path elements, `Clean` and name resolution -/

theorem isEntryName_iff (e : GoString) :
    isEntryName e = true ↔ e ≠ [] ∧ e ≠ ['.'] ∧ e ≠ ['.', '.'] ∧ '/' ∉ e := by
  simp [isEntryName, and_assoc]

theorem Clean.step_entryName (r : Bool) (out : List GoString) (e : GoString)
    (h : isEntryName e = true) : Clean.step r out e = e :: out := by
  obtain ⟨h1, h2, h3, _⟩ := (isEntryName_iff e).1 h
  simp [Clean.step, h1, h2, h3]

theorem Clean.foldl_entryNames (r : Bool) (l : List GoString) :
    ∀ out : List GoString, (∀ x ∈ l, isEntryName x = true) →
      l.foldl (Clean.step r) out = l.reverse ++ out := by
  induction l with
  | nil => intro out _; rfl
  | cons x l ih =>
    intro out h
    rw [List.foldl_cons, Clean.step_entryName r out x (h x (List.mem_cons_self _ _)),
      ih _ (fun y hy => h y (List.mem_cons_of_mem _ hy))]
    simp

theorem pathElems_ne_nil (p : GoString) : pathElems p ≠ [] := by
  unfold pathElems List.splitOn
  exact List.splitOnP_ne_nil _ _

theorem pathElems_cons (c : Char) (p : GoString) :
    pathElems (c :: p) =
      if c = '/' then [] :: pathElems p else (pathElems p).modifyHead (List.cons c) := by
  unfold pathElems List.splitOn
  rw [List.splitOnP_cons]
  by_cases h : c = '/' <;> simp [h]

theorem pathElems_no_sep (p : GoString) : ∀ e ∈ pathElems p, '/' ∉ e := by
  induction p with
  | nil => intro e he; simp [pathElems] at he; simp [he]
  | cons c p ih =>
    intro e he
    rw [pathElems_cons] at he
    by_cases h : c = '/'
    · simp only [h, if_true, List.mem_cons] at he
      rcases he with he | he
      · simp [he]
      · exact ih e he
    · simp only [h, if_false] at he
      cases hp : pathElems p with
      | nil => exact absurd hp (pathElems_ne_nil p)
      | cons a t =>
        rw [hp] at he
        simp only [List.modifyHead, List.mem_cons] at he
        rcases he with he | he
        · subst he
          intro hmem
          rcases List.mem_cons.1 hmem with h1 | h1
          · exact h h1.symm
          · exact ih a (by rw [hp]; exact List.mem_cons_self _ _) h1
        · exact ih e (by rw [hp]; exact List.mem_cons_of_mem _ he)

theorem pathElems_append_sep (a b : GoString) :
    pathElems (a ++ '/' :: b) = pathElems a ++ pathElems b := by
  induction a with
  | nil =>
    rw [List.nil_append, pathElems_cons, if_pos rfl]
    simp [pathElems]
  | cons c a ih =>
    rw [List.cons_append, pathElems_cons, pathElems_cons, ih]
    by_cases h : c = '/'
    · simp [h]
    · simp only [h, if_false]
      cases hp : pathElems a with
      | nil => exact absurd hp (pathElems_ne_nil a)
      | cons x t => simp [List.modifyHead]

theorem pathElems_of_no_sep (e : GoString) (h : '/' ∉ e) : pathElems e = [e] := by
  unfold pathElems List.splitOn
  apply List.splitOnP_eq_single
  intro x hx hp
  rw [beq_iff_eq] at hp
  exact h (hp ▸ hx)

theorem pathElems_joinSlash (ls : List GoString) (hne : ls ≠ []) (h : ∀ l ∈ ls, '/' ∉ l) :
    pathElems (strings.JoinSlash ls) = ls := by
  unfold pathElems strings.JoinSlash
  exact List.splitOn_intercalate ls '/' h hne

theorem Clean.step_stacks (e : GoString) (he : '/' ∉ e) (stT : List GoString) (k : Nat)
    (hT : ∀ x ∈ stT, isEntryName x = true) :
    (∀ x ∈ Clean.step true stT e, isEntryName x = true) ∧
    ∃ k1, Clean.step false (stT ++ List.replicate k ['.', '.']) e =
      Clean.step true stT e ++ List.replicate k1 ['.', '.'] := by
  by_cases h1 : e = [] ∨ e = ['.']
  · simp only [Clean.step, h1, if_true]
    exact ⟨hT, k, rfl⟩
  · by_cases h2 : e = ['.', '.']
    · subst h2
      cases stT with
      | nil =>
        refine ⟨by simp [Clean.step], ?_⟩
        cases k with
        | zero => exact ⟨1, by simp [Clean.step, List.replicate]⟩
        | succ k => exact ⟨k + 2, by simp [Clean.step, List.replicate]⟩
      | cons t rest =>
        have ht : t ≠ ['.', '.'] := ((isEntryName_iff t).1 (hT t (List.mem_cons_self _ _))).2.2.1
        refine ⟨?_, k, ?_⟩
        · intro x hx
          simp only [Clean.step, ht] at hx
          simp at hx
          exact hT x (List.mem_cons_of_mem _ hx)
        · simp [Clean.step, ht]
    · have hen : isEntryName e = true := by
        rw [isEntryName_iff]
        exact ⟨fun h => h1 (Or.inl h), fun h => h1 (Or.inr h), h2, he⟩
      rw [Clean.step_entryName true stT e hen, Clean.step_entryName false _ e hen]
      refine ⟨?_, k, by simp⟩
      intro x hx
      rcases List.mem_cons.1 hx with hx | hx
      · exact hx ▸ hen
      · exact hT x hx

theorem Clean.foldl_stacks (es : List GoString) :
    ∀ (stT : List GoString) (k : Nat), (∀ e ∈ es, '/' ∉ e) →
      (∀ x ∈ stT, isEntryName x = true) →
      (∀ x ∈ es.foldl (Clean.step true) stT, isEntryName x = true) ∧
      ∃ k1, es.foldl (Clean.step false) (stT ++ List.replicate k ['.', '.']) =
        es.foldl (Clean.step true) stT ++ List.replicate k1 ['.', '.'] := by
  induction es with
  | nil => intro stT k _ hT; exact ⟨hT, k, rfl⟩
  | cons e es ih =>
    intro stT k hes hT
    obtain ⟨h1, k1, h2⟩ := Clean.step_stacks e (hes e (List.mem_cons_self _ _)) stT k hT
    simp only [List.foldl_cons]
    rw [h2]
    exact ih _ k1 (fun x hx => hes x (List.mem_cons_of_mem _ hx)) h1

theorem resolve_entryNames (p : GoString) : ∀ x ∈ resolve p, isEntryName x = true := by
  intro x hx
  unfold resolve at hx
  rw [List.mem_reverse] at hx
  exact (Clean.foldl_stacks (pathElems p) [] 0 (pathElems_no_sep p) (by simp)).1 x hx

theorem entryName_no_sep (x : GoString) (h : isEntryName x = true) : '/' ∉ x :=
  ((isEntryName_iff x).1 h).2.2.2

theorem Clean.foldl_dotdots (k : Nat) :
    (List.replicate k ['.', '.']).foldl (Clean.step true) [] = [] := by
  induction k with
  | zero => rfl
  | succ k ih =>
    rw [List.replicate_succ, List.foldl_cons]
    simpa [Clean.step] using ih

theorem resolve_joinSlash_stack (st : List GoString) (k : Nat) (hne : st ++ List.replicate k ['.', '.'] ≠ [])
    (hst : ∀ x ∈ st, isEntryName x = true) :
    resolve (strings.JoinSlash (st ++ List.replicate k ['.', '.']).reverse) = st.reverse := by
  unfold resolve
  rw [pathElems_joinSlash _ (fun h => hne (List.reverse_eq_nil_iff.1 h))]
  · rw [List.reverse_append, List.foldl_append, List.reverse_replicate, Clean.foldl_dotdots,
      Clean.foldl_entryNames true st.reverse [] (by simpa using hst)]
    simp
  · intro l hl
    rw [List.mem_reverse, List.mem_append] at hl
    rcases hl with hl | hl
    · exact entryName_no_sep l (hst l hl)
    · rw [List.eq_of_mem_replicate hl]; decide

theorem resolve_sep_cons (p : GoString) : resolve ('/' :: p) = resolve p := by
  unfold resolve
  rw [pathElems_cons, if_pos rfl, List.foldl_cons]
  rfl

theorem resolve_Clean (p : GoString) : resolve (filepath.Clean p) = resolve p := by
  unfold filepath.Clean
  by_cases hp : p = []
  · subst hp; decide
  · simp only [hp, if_false]
    obtain ⟨hT, k1, hF⟩ := Clean.foldl_stacks (pathElems p) [] 0 (pathElems_no_sep p) (by simp)
    simp only [List.replicate_zero, List.append_nil] at hF
    by_cases hr : p.head? = some '/'
    · simp only [hr, decide_True, if_true]
      rw [resolve_sep_cons]
      by_cases hout : (pathElems p).foldl (Clean.step true) [] = []
      · rw [hout]
        unfold resolve
        rw [hout]
        decide
      · have := resolve_joinSlash_stack _ 0 (by simpa using hout) hT
        simpa [resolve] using this
    · simp only [hr, decide_False, if_false]
      simp only [Bool.false_eq_true, if_false]
      by_cases hout : (pathElems p).foldl (Clean.step false) [] = []
      · simp only [hout, if_true]
        rw [hout] at hF
        have hnil : (pathElems p).foldl (Clean.step true) [] = [] := by
          cases h : (pathElems p).foldl (Clean.step true) [] with
          | nil => rfl
          | cons a t => rw [h] at hF; simp at hF
        unfold resolve
        rw [hnil]
        decide
      · simp only [hout, if_false]
        rw [hF]
        rw [hF] at hout
        rw [resolve_joinSlash_stack _ k1 hout hT]
        rfl

theorem resolve_append_entry (d name : GoString) (h : isEntryName name = true) :
    resolve (d ++ '/' :: name) = resolve d ++ [name] := by
  unfold resolve
  rw [pathElems_append_sep, List.foldl_append, pathElems_of_no_sep name (entryName_no_sep name h)]
  simp [Clean.step_entryName _ _ _ h]

theorem resolve_entry (name : GoString) (h : isEntryName name = true) : resolve name = [name] := by
  unfold resolve
  rw [pathElems_of_no_sep name (entryName_no_sep name h)]
  simp [Clean.step_entryName _ _ _ h]

theorem resolve_nil : resolve [] = [] := by decide

/-- The key of an entry: joining a directory path and an entry name resolves to the
key of the directory followed by the name. -/
theorem resolve_Join (d name : GoString) (h : isEntryName name = true) :
    resolve (filepath.Join [d, name]) = resolve d ++ [name] := by
  have hne : name ≠ [] := ((isEntryName_iff name).1 h).1
  unfold filepath.Join
  by_cases hd : d = []
  · subst hd
    simp only [List.dropWhile, decide_True, hne, decide_False]
    rw [resolve_Clean]
    simp [strings.JoinSlash, List.intercalate, resolve_entry name h, resolve_nil]
  · simp only [List.dropWhile, hd, decide_False]
    rw [resolve_Clean]
    have : strings.JoinSlash [d, name] = d ++ '/' :: name := by
      simp [strings.JoinSlash, List.intercalate]
    rw [this, resolve_append_entry d name h]

/-! ## The `%d` verb -/

theorem digit_facts : ∀ d, d < 10 →
    (Char.ofNat (48 + d)).toNat - 48 = d ∧ Char.ofNat (48 + d) ≠ '/' := by decide

theorem formatDecimal.loop_digits : ∀ (fuel n : Nat) (acc : GoString), n < fuel →
    ∃ ds, formatDecimal.loop fuel n acc = ds ++ acc ∧ decodeDecimal ds = n ∧ '/' ∉ ds := by
  intro fuel
  induction fuel with
  | zero => intro n acc h; omega
  | succ fuel ih =>
    intro n acc h
    have hd := digit_facts (n % 10) (Nat.mod_lt _ (by decide))
    unfold formatDecimal.loop
    by_cases h0 : n / 10 = 0
    · refine ⟨[Char.ofNat (48 + n % 10)], by simp [h0], ?_, ?_⟩
      · simp only [decodeDecimal, List.foldl_cons, List.foldl_nil, hd.1]
        have := Nat.div_add_mod n 10
        omega
      · simpa using hd.2.symm
    · obtain ⟨ds, h1, h2, h3⟩ := ih (n / 10) (Char.ofNat (48 + n % 10) :: acc) (by omega)
      refine ⟨ds ++ [Char.ofNat (48 + n % 10)], by simp [h0, h1], ?_, ?_⟩
      · unfold decodeDecimal at h2 ⊢
        rw [List.foldl_append, h2]
        simp only [List.foldl_cons, List.foldl_nil, hd.1]
        exact Nat.div_add_mod n 10
      · simp only [List.mem_append, List.mem_singleton, not_or]
        exact ⟨h3, fun h => hd.2 h.symm⟩

theorem decodeDecimal_formatDecimal (n : Nat) : decodeDecimal (formatDecimal n) = n := by
  obtain ⟨ds, h1, h2, _⟩ := formatDecimal.loop_digits (n + 1) n [] (Nat.lt_succ_self n)
  unfold formatDecimal
  rw [h1, List.append_nil, h2]

theorem formatDecimal_injective (a b : Nat) (h : formatDecimal a = formatDecimal b) : a = b := by
  rw [← decodeDecimal_formatDecimal a, ← decodeDecimal_formatDecimal b, h]

theorem formatDecimal_no_sep (n : Nat) : '/' ∉ formatDecimal n := by
  obtain ⟨ds, h1, _, h3⟩ := formatDecimal.loop_digits (n + 1) n [] (Nat.lt_succ_self n)
  unfold formatDecimal
  rw [h1, List.append_nil]
  exact h3

/-! ## The parts of a path that `getUniqueFilename` takes -/

theorem afterLastSlash_no_sep (p : GoString) : '/' ∉ afterLastSlash p := by
  unfold afterLastSlash
  intro h
  rw [List.mem_reverse] at h
  have := List.mem_takeWhile_imp h
  simp at this

theorem uptoLastSlash_append (p : GoString) : uptoLastSlash p ++ afterLastSlash p = p := by
  unfold uptoLastSlash afterLastSlash
  rw [← List.reverse_append, List.takeWhile_append_dropWhile, List.reverse_reverse]

theorem drop_length_takeWhile {α : Type} (q : α → Bool) (l : List α) :
    l.drop (l.takeWhile q).length = l.dropWhile q := by
  induction l with
  | nil => rfl
  | cons a l ih =>
    by_cases h : q a
    · simp [List.takeWhile, List.dropWhile, h, ih]
    · simp [List.takeWhile, List.dropWhile, h]

theorem path.Ext_suffix (f : GoString) : ∃ pre, pre ++ path.Ext f = f := by
  unfold path.Ext
  have hsplit := List.takeWhile_append_dropWhile (fun c => decide (c ≠ '/') && decide (c ≠ '.'))
    f.reverse
  have hdrop : f.reverse.drop
      (f.reverse.takeWhile (fun c => decide (c ≠ '/') && decide (c ≠ '.'))).length =
      f.reverse.dropWhile (fun c => decide (c ≠ '/') && decide (c ≠ '.')) := by
    exact drop_length_takeWhile _ _
  simp only [hdrop]
  cases hd : f.reverse.dropWhile (fun c => decide (c ≠ '/') && decide (c ≠ '.')) with
  | nil => exact ⟨f, by simp⟩
  | cons c rest =>
    by_cases hc : c = '.'
    · subst hc
      refine ⟨rest.reverse, ?_⟩
      rw [hd] at hsplit
      have := congrArg List.reverse hsplit
      simpa using this
    · refine ⟨f, ?_⟩
      have : (match c :: rest with
        | '.' :: _ => '.' :: (f.reverse.takeWhile
            (fun c => decide (c ≠ '/') && decide (c ≠ '.'))).reverse
        | _ => []) = [] := by
        split
        · rename_i heq; simp at heq; exact absurd heq.1 hc
        · rfl
      rw [this, List.append_nil]

theorem take_append_Ext (f : GoString) :
    f.take (f.length - (path.Ext f).length) ++ path.Ext f = f := by
  obtain ⟨pre, h⟩ := path.Ext_suffix f
  have hlen : f.length = pre.length + (path.Ext f).length := by
    conv_lhs => rw [← h]
    simp
  have : f.take (f.length - (path.Ext f).length) = pre := by
    rw [hlen, Nat.add_sub_cancel]
    conv_lhs => rw [← h]
    simp
  rw [this, h]

theorem candidate_entryName (f : GoString) (hf : '/' ∉ f) (k : Nat) :
    isEntryName (fmt.Sprintf_s_d_s (f.take (f.length - (path.Ext f).length)) k (path.Ext f))
      = true := by
  have happ := take_append_Ext f
  have hname : '/' ∉ f.take (f.length - (path.Ext f).length) :=
    fun h => hf (List.mem_of_mem_take h)
  have hext : '/' ∉ path.Ext f := by
    intro h
    apply hf
    rw [← happ]
    exact List.mem_append_right _ h
  have hus : '_' ∈ fmt.Sprintf_s_d_s (f.take (f.length - (path.Ext f).length)) k (path.Ext f) := by
    simp [fmt.Sprintf_s_d_s]
  rw [isEntryName_iff]
  refine ⟨?_, ?_, ?_, ?_⟩
  · intro h; rw [h] at hus; simp at hus
  · intro h; rw [h] at hus; simp at hus
  · intro h; rw [h] at hus; simp at hus
  · simp only [fmt.Sprintf_s_d_s, List.mem_append, List.mem_cons, not_or]
    exact ⟨hname, by decide, formatDecimal_no_sep k, hext⟩

theorem resolve_candidate (p : GoString) (k : Nat) :
    resolve (getUniqueFilename.candidate p k) =
      resolve (uptoLastSlash p) ++
        [(afterLastSlash p).take ((afterLastSlash p).length - (path.Ext (afterLastSlash p)).length)
          ++ '_' :: (formatDecimal k ++ path.Ext (afterLastSlash p))] := by
  unfold getUniqueFilename.candidate path.Join
  simp only [path.Split]
  rw [resolve_Join _ _ (candidate_entryName _ (afterLastSlash_no_sep p) k)]
  rfl

theorem resolve_candidate_injective (p : GoString) (j k : Nat)
    (h : resolve (getUniqueFilename.candidate p j) = resolve (getUniqueFilename.candidate p k)) :
    j = k := by
  rw [resolve_candidate, resolve_candidate] at h
  have h1 := List.append_cancel_left h
  simp only [List.cons.injEq, and_true] at h1
  have h2 := List.append_cancel_left h1
  simp only [List.cons.injEq, true_and] at h2
  exact formatDecimal_injective j k (List.append_cancel_right h2)

/-! ## `sort.Slice` and `SortDirsByDepth` -/

theorem sort.insertBack_perm {α : Type} (less : α → α → Bool) (x : α) (l : List α) :
    (sort.insertBack less x l).Perm (x :: l) := by
  induction l with
  | nil => exact List.Perm.refl _
  | cons y l ih =>
    unfold sort.insertBack
    by_cases h : less x y
    · simp only [h, if_true]
      exact (List.Perm.cons y ih).trans (List.Perm.swap x y l)
    · simp only [h, Bool.false_eq_true, if_false]
      exact List.Perm.refl _

theorem sort.insertBack_sorted {α : Type} (f : α → Nat) (less : α → α → Bool)
    (hless : ∀ a b, less a b = decide (f a > f b)) (x : α) (l : List α)
    (h : l.Pairwise (fun a b => f a ≤ f b)) :
    (sort.insertBack less x l).Pairwise (fun a b => f a ≤ f b) := by
  induction l with
  | nil => simp [sort.insertBack]
  | cons y l ih =>
    rw [List.pairwise_cons] at h
    unfold sort.insertBack
    by_cases hxy : less x y
    · simp only [hxy, if_true]
      rw [hless, decide_eq_true_eq] at hxy
      rw [List.pairwise_cons]
      refine ⟨?_, ih h.2⟩
      intro z hz
      rcases List.mem_cons.1 ((sort.insertBack_perm less x l).subset hz) with hz | hz
      · subst hz; omega
      · exact h.1 z hz
    · simp only [hxy, Bool.false_eq_true, if_false]
      rw [hless, decide_eq_true_eq] at hxy
      rw [List.pairwise_cons, List.pairwise_cons]
      refine ⟨?_, h⟩
      intro z hz
      rcases List.mem_cons.1 hz with hz | hz
      · subst hz; omega
      · have := h.1 z hz; omega

theorem sort.foldl_insertBack {α : Type} (f : α → Nat) (less : α → α → Bool)
    (hless : ∀ a b, less a b = decide (f a > f b)) (xs : List α) :
    ∀ acc : List α, acc.Pairwise (fun a b => f a ≤ f b) →
      (xs.foldl (fun sorted x => sort.insertBack less x sorted) acc).Pairwise
        (fun a b => f a ≤ f b) ∧
      (xs.foldl (fun sorted x => sort.insertBack less x sorted) acc).Perm (xs.reverse ++ acc) := by
  induction xs with
  | nil => intro acc h; exact ⟨h, List.Perm.refl _⟩
  | cons x xs ih =>
    intro acc h
    obtain ⟨h1, h2⟩ := ih (sort.insertBack less x acc) (sort.insertBack_sorted f less hless x acc h)
    refine ⟨h1, h2.trans ?_⟩
    rw [List.reverse_cons, List.append_assoc]
    exact List.Perm.append_left _ (sort.insertBack_perm less x acc)

/-- The result of `sort.Slice` under a comparison "greater key first" is a permutation of
the input in which the keys do not increase. -/
theorem sort.Slice_sorted {α : Type} (f : α → Nat) (less : α → α → Bool)
    (hless : ∀ a b, less a b = decide (f a > f b)) (xs : List α) :
    (sort.Slice xs less).Pairwise (fun a b => f a ≥ f b) ∧ (sort.Slice xs less).Perm xs := by
  obtain ⟨h1, h2⟩ := sort.foldl_insertBack f less hless xs [] List.Pairwise.nil
  unfold sort.Slice
  refine ⟨?_, ?_⟩
  · rw [List.pairwise_reverse]
    exact h1
  · rw [List.append_nil] at h2
    exact (List.reverse_perm _).trans (h2.trans (List.reverse_perm _))

/-- In any order in which the separator counts do not increase, a path stands before
every path it is a proper descendant of. -/
theorem descendant_before_of_sorted (l : List GoString)
    (h : l.Pairwise (fun a b => strings.Count a os.PathSeparator ≥ strings.Count b os.PathSeparator))
    (i j : Nat) (q rest : GoString)
    (hi : l[i]? = some (q ++ os.PathSeparator :: rest)) (hj : l[j]? = some q) : i < j := by
  by_contra hij
  obtain ⟨hi1, hi2⟩ := List.getElem?_eq_some.1 hi
  obtain ⟨hj1, hj2⟩ := List.getElem?_eq_some.1 hj
  rcases Nat.lt_or_eq_of_le (Nat.le_of_not_lt hij) with hlt | heq
  · have := List.pairwise_iff_getElem.1 h j i hj1 hi1 hlt
    rw [hi2, hj2] at this
    simp [strings.Count, os.PathSeparator] at this
  · subst heq
    rw [hi2] at hj2
    have := congrArg List.length hj2
    simp at this

/-- C4. After `SortDirsByDepth` the list holds the same paths, the number of separators
does not increase along it, and a path `q/rest` stands at an earlier index than `q`, so
that the loop of `deleteSubDirs`, which removes the paths from the front, reaches every
proper descendant before the directory it lies in. -/
theorem SortDirsByDepth_descendants_first (dirs : List GoString) :
    (SortDirsByDepth dirs).Perm dirs ∧
    (SortDirsByDepth dirs).Pairwise
      (fun a b => strings.Count a os.PathSeparator ≥ strings.Count b os.PathSeparator) ∧
    ∀ (i j : Nat) (q rest : GoString),
      (SortDirsByDepth dirs)[i]? = some (q ++ os.PathSeparator :: rest) →
      (SortDirsByDepth dirs)[j]? = some q → i < j := by
  obtain ⟨h1, h2⟩ := sort.Slice_sorted (fun a => strings.Count a os.PathSeparator)
    SortDirsByDepth.less (fun a b => rfl) dirs
  exact ⟨h2, h1, fun i j q rest hi hj => descendant_before_of_sorted _ h1 i j q rest hi hj⟩

theorem SortDirsByDepth_descendants_first_witness :
    (SortDirsByDepth ["tmp/subdir1".toList, "tmp/subdir1/nesteddir".toList,
      "tmp/subdir2".toList])[0]? =
        some ("tmp/subdir1".toList ++ os.PathSeparator :: "nesteddir".toList) ∧
    (SortDirsByDepth ["tmp/subdir1".toList, "tmp/subdir1/nesteddir".toList,
      "tmp/subdir2".toList])[1]? = some "tmp/subdir1".toList ∧
    0 < 1 :=
  ⟨by decide, by decide,
    (SortDirsByDepth_descendants_first ["tmp/subdir1".toList, "tmp/subdir1/nesteddir".toList,
      "tmp/subdir2".toList]).2.2 0 1 "tmp/subdir1".toList "nesteddir".toList
      (by decide) (by decide)⟩

/-! ## `moveFileAttempt` and `MoveFile` -/

/-- Every error `moveFileAttempt` returns was made by `fmt.Errorf` with `%w`. -/
theorem moveFileAttempt_error_wrapped (fs : FS) (src dst : GoString) (e : GoError)
    (h : (moveFileAttempt fs src dst).2 = some e) : ∃ msg inner, e = .wrapError msg inner := by
  unfold moveFileAttempt File.Close at h
  repeat' split at h
  all_goals first
    | (simp only [Option.some.injEq] at h; exact ⟨_, _, h.symm⟩)
    | simp at h

theorem os.IsExist_wrapError (msg : String) (inner : GoError) :
    os.IsExist (some (.wrapError msg inner)) = false := rfl

theorem os.IsPermission_wrapError (msg : String) (inner : GoError) :
    os.IsPermission (some (.wrapError msg inner)) = false := rfl

/-- The loop of `MoveFile` when every call of `moveFileAttempt` fails transiently: it makes
`n` calls, one after the other on the state the one before left, sleeps after each, and
returns the error of the exhausted loop. -/
theorem MoveFile.loop_all_fail (src dst : GoString) :
    ∀ (n attempt : Nat) (fs : FS) (tr : MoveTrace),
      (∀ i, i < n → isTransientFailure (attemptResult src dst fs i) = true) →
      MoveFile.loop src n attempt fs dst tr =
        some ((attemptStates src dst n fs,
            some (.errorString ("failed to move file after ".toList ++
              formatDecimal maxRetries ++ " attempts".toList))),
          ⟨tr.attempts ++ (List.range n).map (fun i => (dst, attemptResult src dst fs i)),
            tr.sleeps ++ (List.range n).map (fun i => baseDelay * 2 ^ (attempt + i))⟩) := by
  intro n
  induction n with
  | zero => intro attempt fs tr _; simp [MoveFile.loop, attemptStates]
  | succ n ih =>
    intro attempt fs tr h
    have h0 := h 0 (Nat.succ_pos n)
    unfold MoveFile.loop
    cases hm : moveFileAttempt fs src dst with
    | mk fs1 err =>
      have hres : attemptResult src dst fs 0 = err := by
        simp [attemptResult, attemptStates, hm]
      cases err with
      | none => rw [hres] at h0; simp [isTransientFailure] at h0
      | some e =>
        obtain ⟨msg, inner, he⟩ := moveFileAttempt_error_wrapped fs src dst e (by rw [hm])
        subst he
        simp only [os.IsExist_wrapError, os.IsPermission_wrapError, Bool.false_eq_true, if_false]
        have hshift : ∀ i, attemptResult src dst fs (i + 1) = attemptResult src dst fs1 i := by
          intro i
          simp [attemptResult, attemptStates, hm]
        rw [ih (attempt + 1) fs1 _ (fun i hi => by rw [← hshift]; exact h (i + 1) (by omega))]
        have hst : attemptStates src dst (n + 1) fs = attemptStates src dst n fs1 := by
          simp [attemptStates, hm]
        rw [hst, List.range_succ_eq_map]
        simp only [List.map_cons, List.map_map, hres, Nat.add_zero, List.append_assoc,
          List.singleton_append]
        have hmap1 : List.map ((fun i => (dst, attemptResult src dst fs i)) ∘ Nat.succ)
            (List.range n) = List.map (fun i => (dst, attemptResult src dst fs1 i))
            (List.range n) := by
          apply List.map_congr_left
          intro i _
          simp [hshift]
        have hmap2 : List.map ((fun i => baseDelay * 2 ^ (attempt + i)) ∘ Nat.succ)
            (List.range n) = List.map (fun i => baseDelay * 2 ^ (attempt + 1 + i))
            (List.range n) := by
          apply List.map_congr_left
          intro i _
          simp only [Function.comp]
          congr 2
          omega
        rw [hmap1, hmap2]

/-- C7. When each of the 5 consecutive calls `moveFileAttempt(src, dst)`, the first made
in the state `fs` and each of the others in the state the call before it left, fails
with a transient error, `MoveFile` returns; its calls of `moveFileAttempt` are exactly
those 5, in that order and with the destination unchanged; it has slept after each of
them; the state it leaves is the state after the fifth call; and what it returns is
the error `failed to move file after 5 attempts`. -/
theorem MoveFile_retry_bound (fs : FS) (src dst : GoString)
    (h : ∀ i, i < 5 → isTransientFailure (attemptResult src dst fs i) = true) :
    ∃ x, MoveFile fs src dst = some x ∧
      x.2.attempts = (List.range 5).map (fun i => (dst, attemptResult src dst fs i)) ∧
      x.2.attempts.length = 5 ∧
      x.2.sleeps = [100, 200, 400, 800, 1600] ∧
      x.1.1 = attemptStates src dst 5 fs ∧
      x.1.2 = some (.errorString "failed to move file after 5 attempts".toList) ∧
      x.1.2 ≠ none := by
  have hl := MoveFile.loop_all_fail src dst maxRetries 0 fs ⟨[], []⟩ h
  refine ⟨_, hl, ?_, ?_, ?_, rfl, ?_, ?_⟩
  · simp [maxRetries]
  · simp [maxRetries]
  · rfl
  · rfl
  · simp

theorem MoveFile_retry_bound_witness :
    (moveFileAttempt missingSourceFS "root/sub/a.txt".toList "root/a.txt".toList).2 =
      some (.wrapError "failed to open source file: "
        (.pathError "open" "root/sub/a.txt".toList .ENOENT)) ∧
    (∀ i, i < 5 → isTransientFailure
      (attemptResult "root/sub/a.txt".toList "root/a.txt".toList missingSourceFS i) = true) ∧
    ∃ x, MoveFile missingSourceFS "root/sub/a.txt".toList "root/a.txt".toList = some x ∧
      x.2.attempts = (List.range 5).map (fun i => ("root/a.txt".toList,
        attemptResult "root/sub/a.txt".toList "root/a.txt".toList missingSourceFS i)) ∧
      x.2.attempts.length = 5 ∧
      x.2.sleeps = [100, 200, 400, 800, 1600] ∧
      x.1.1 = attemptStates "root/sub/a.txt".toList "root/a.txt".toList 5 missingSourceFS ∧
      x.1.2 = some (.errorString "failed to move file after 5 attempts".toList) ∧
      x.1.2 ≠ none :=
  ⟨by rfl, by decide!, MoveFile_retry_bound missingSourceFS _ _ (by decide!)⟩

/-- C6, at a source that may not be read: the first call of `moveFileAttempt` fails on
`EACCES`, and `MoveFile` calls it five times, sleeps after each call and returns the
error of the exhausted loop, not the permission error. -/
theorem MoveFile_retries_permission_error :
    (moveFileAttempt unreadableFS "root/sub/a.txt".toList "root/a.txt".toList).2.map
        GoError.cause = some (some Errno.EACCES) ∧
    os.IsPermission (moveFileAttempt unreadableFS "root/sub/a.txt".toList "root/a.txt".toList).2
      = false ∧
    (MoveFile unreadableFS "root/sub/a.txt".toList "root/a.txt".toList).map
        (fun x => (x.2.attempts.length, x.2.sleeps, x.1.2)) =
      some (5, [100, 200, 400, 800, 1600],
        some (.errorString "failed to move file after 5 attempts".toList)) := by
  decide!

/-- C1, at a destination that is occupied: `os.Create` opens and truncates `root/a.txt`,
the single call of `moveFileAttempt` succeeds, and afterwards `root/a.txt` holds the
content `S` of the source, the content `D` is gone and no `root/a_1.txt` exists. -/
theorem MoveFile_overwrites_destination :
    (MoveFile collisionFS "root/sub/a.txt".toList "root/a.txt".toList).map
        (fun x => (x.1.2, x.2.attempts.length,
          x.1.1.lookup ["root".toList, "a.txt".toList],
          x.1.1.lookup ["root".toList, "a_1.txt".toList],
          x.1.1.lookup ["root".toList, "sub".toList, "a.txt".toList])) =
      some (none, 1, some (.file "S".toList .rw), none, none) := by
  decide!

/-- C2, at the root `root/`: the file `root/a.txt`, which lies directly in the root, is
counted by `CountFilesToMove` and moved onto itself by `MoveFiles`, which returns nil and
leaves no file at `root/a.txt`; with the root spelled `root` the same file is not
counted and stays. -/
theorem MoveFiles_trailing_separator_moves_root_file :
    rootFileFS.lookup ["root".toList, "a.txt".toList] = some (.file "D".toList .rw) ∧
    CountFilesToMove 3 rootFileFS "root/".toList = some (1, none) ∧
    ((NewFileMover "root/".toList).MoveFiles 3 rootFileFS).map
        (fun x => (x.2, x.1.1.lookup ["root".toList, "a.txt".toList])) = some (none, none) ∧
    CountFilesToMove 3 rootFileFS "root".toList = some (0, none) ∧
    ((NewFileMover "root".toList).MoveFiles 3 rootFileFS).map
        (fun x => (x.2, x.1.1.lookup ["root".toList, "a.txt".toList])) =
      some (none, some (.file "D".toList .rw)) := by
  decide!

/-- C3, at a tree with two files named `a.txt` in two subdirectories: `MoveFiles` returns
nil and the root then holds one file, `root/a.txt` with the content of the second. -/
theorem MoveFiles_same_name_loses_file :
    ((NewFileMover "root".toList).MoveFiles 3 sameNameFS).map (fun x => (x.2, x.1.1.nodes)) =
      some (none, [([], .dir .rwx), (["root".toList], .dir .rwx),
        (["root".toList, "a.txt".toList], .file "2".toList .rw)]) := by
  decide!

/-! ## Lookups -/

theorem FS.lookup_eq_none_iff (fs : FS) (k : Key) :
    fs.lookup k = none ↔ k ∉ fs.nodes.map Prod.fst := by
  unfold FS.lookup
  simp only [Option.map_eq_none', List.find?_eq_none, decide_eq_true_eq, List.mem_map, not_exists,
    not_and]

theorem FS.lookup_erase_self (fs : FS) (k : Key) : (fs.erase k).lookup k = none := by
  rw [FS.lookup_eq_none_iff]
  simp only [FS.erase, List.mem_map, List.mem_filter, decide_eq_true_eq, not_exists, not_and]
  intro e he hk
  exact he.2 hk

theorem find_filter_ne (l : List (Key × Node)) (k k1 : Key) (h : k1 ≠ k) :
    (l.filter (fun e => decide (e.1 ≠ k))).find? (fun e => decide (e.1 = k1)) =
      l.find? (fun e => decide (e.1 = k1)) := by
  induction l with
  | nil => rfl
  | cons e l ih =>
    by_cases h1 : e.1 = k
    · have h2 : ¬ e.1 = k1 := fun h3 => h (h3.symm.trans h1)
      rw [List.filter_cons_of_neg (by simpa using h1), List.find?_cons_of_neg _ (by simpa using h2)]
      exact ih
    · rw [List.filter_cons_of_pos (by simpa using h1)]
      by_cases h2 : e.1 = k1
      · rw [List.find?_cons_of_pos _ (by simpa using h2),
          List.find?_cons_of_pos _ (by simpa using h2)]
      · rw [List.find?_cons_of_neg _ (by simpa using h2),
          List.find?_cons_of_neg _ (by simpa using h2)]
        exact ih

theorem FS.lookup_erase_ne (fs : FS) (k k1 : Key) (h : k1 ≠ k) :
    (fs.erase k).lookup k1 = fs.lookup k1 := by
  unfold FS.lookup FS.erase
  rw [find_filter_ne fs.nodes k k1 h]

theorem FS.lookup_insert_self (fs : FS) (k : Key) (n : Node) : (fs.insert k n).lookup k = some n := by
  have h := FS.lookup_erase_self fs k
  unfold FS.lookup at h ⊢
  unfold FS.insert
  simp only [Option.map_eq_none'] at h
  simp [List.find?_append, h]

theorem FS.lookup_insert_ne (fs : FS) (k k1 : Key) (n : Node) (h : k1 ≠ k) :
    (fs.insert k n).lookup k1 = fs.lookup k1 := by
  have h1 := FS.lookup_erase_ne fs k k1 h
  unfold FS.lookup at h1 ⊢
  unfold FS.insert
  rw [List.find?_append]
  have h2 : List.find? (fun e => decide (e.1 = k1)) [(k, n)] = none := by
    simp [List.find?, Ne.symm h]
  rw [h2, Option.or_none]
  exact h1

/-! ## Path lookup -/

theorem FS.namei.foldl_error (fs : FS) (es : List GoString) (errno : Errno) :
    es.foldl (FS.namei.step fs) (.error errno) = .error errno := by
  induction es with
  | nil => rfl
  | cons e es ih => rw [List.foldl_cons]; exact ih

theorem FS.namei.step_ok (fs : FS) (cur r : List GoString) (e : GoString)
    (h : FS.namei.step fs (.ok cur) e = .ok r) :
    r = Clean.step true cur e ∧ fs.isDir cur.reverse = true ∧
      (e ≠ [] → fs.dirSearchable cur.reverse = true) := by
  unfold FS.namei.step at h
  simp only at h
  unfold FS.isDir FS.dirSearchable
  cases hl : fs.lookup cur.reverse with
  | none => rw [hl] at h; simp at h
  | some node =>
    rw [hl] at h
    cases node with
    | file c m => simp at h
    | dir m =>
      simp only at h
      by_cases hc : e = [] ∨ m.x = true
      · simp only [hc, if_true, Except.ok.injEq] at h
        refine ⟨h.symm, rfl, fun he => ?_⟩
        rcases hc with hc | hc
        · exact absurd hc he
        · exact hc
      · simp [hc] at h

theorem FS.namei.step_ok_or_error (fs : FS) (cur : List GoString) (e : GoString) :
    FS.namei.step fs (.ok cur) e = .ok (Clean.step true cur e) ∨
      ∃ errno, FS.namei.step fs (.ok cur) e = .error errno := by
  unfold FS.namei.step
  simp only
  cases fs.lookup cur.reverse with
  | none => exact Or.inr ⟨_, rfl⟩
  | some node =>
    cases node with
    | file c m => exact Or.inr ⟨_, rfl⟩
    | dir m =>
      simp only
      by_cases hc : e = [] ∨ m.x = true
      · left; simp [hc]
      · right; exact ⟨.EACCES, by simp [hc]⟩

/-- A lookup that succeeds ends where the path, read lexically, leads, and every
directory above that place exists and may be searched. -/
theorem FS.namei.foldl_ok (fs : FS) :
    ∀ (es : List GoString) (acc r : List GoString),
      es.foldl (FS.namei.step fs) (.ok acc) = .ok r →
      (∀ i, i < acc.length → fs.dirSearchable (acc.reverse.take i) = true) →
      r = es.foldl (Clean.step true) acc ∧
        ∀ i, i < r.length → fs.dirSearchable (r.reverse.take i) = true := by
  intro es
  induction es with
  | nil =>
    intro acc r h hgood
    simp only [List.foldl_nil, Except.ok.injEq] at h
    subst h
    exact ⟨rfl, hgood⟩
  | cons e es ih =>
    intro acc r h hgood
    rw [List.foldl_cons] at h
    rcases FS.namei.step_ok_or_error fs acc e with hs | ⟨errno, hs⟩
    · obtain ⟨_, _, hx⟩ := FS.namei.step_ok fs acc _ e hs
      rw [hs] at h
      rw [List.foldl_cons]
      apply ih _ r h
      -- the stack after the step is good
      have hpush : ∀ t : GoString, e ≠ [] →
          ∀ i, i < (t :: acc).length → fs.dirSearchable ((t :: acc).reverse.take i) = true := by
        intro t he i hi
        rw [List.reverse_cons]
        by_cases hlt : i < acc.length
        · rw [List.take_append_of_le_length (by simpa using Nat.le_of_lt hlt)]
          exact hgood i hlt
        · have hieq : i = acc.length := by simp at hi; omega
          rw [hieq]
          have : (acc.reverse ++ [t]).take acc.length = acc.reverse := by
            rw [List.take_append_of_le_length (by simp), List.take_of_length_le (by simp)]
          rw [this]
          exact hx he
      have hpop : ∀ (t : GoString) (rest : List GoString), acc = t :: rest →
          ∀ i, i < rest.length → fs.dirSearchable (rest.reverse.take i) = true := by
        intro t rest hacc i hi
        have := hgood i (by rw [hacc]; simp; omega)
        rw [hacc, List.reverse_cons,
          List.take_append_of_le_length (by simpa using Nat.le_of_lt hi)] at this
        exact this
      unfold Clean.step
      by_cases h1 : e = [] ∨ e = ['.']
      · simp only [h1, if_true]; exact hgood
      · have hne : e ≠ [] := fun h0 => h1 (Or.inl h0)
        simp only [h1, if_false]
        by_cases h2 : e = ['.', '.']
        · simp only [h2, if_true]
          cases hacc : acc with
          | nil => simp
          | cons t rest =>
            simp only
            by_cases h3 : t = ['.', '.']
            · simp only [h3, if_true]
              rw [← h3, ← hacc]
              exact hpush _ hne
            · simp only [h3, if_false]
              exact hpop t rest hacc
        · simp only [h2, if_false]
          exact hpush e hne
    · rw [hs, FS.namei.foldl_error] at h
      simp at h

theorem FS.namei_ok (fs : FS) (name : GoString) (k : Key) (h : fs.namei name = .ok k) :
    k = resolve name ∧ ∀ i, i < k.length → fs.dirSearchable (k.take i) = true := by
  unfold FS.namei at h
  cases hf : (pathElems name).foldl (FS.namei.step fs) (.ok []) with
  | error errno => rw [hf] at h; simp at h
  | ok r =>
    rw [hf] at h
    simp only [Except.ok.injEq] at h
    obtain ⟨h1, h2⟩ := FS.namei.foldl_ok fs _ [] r hf (by simp)
    subst h
    refine ⟨by rw [h1]; rfl, fun i hi => h2 i (by simpa using hi)⟩

theorem FS.find_ok (fs : FS) (op : String) (name : GoString) (k : Key)
    (h : fs.find op name = .ok k) :
    name ≠ [] ∧ fs.namei name = .ok k ∧ k = resolve name := by
  unfold FS.find at h
  by_cases hn : name = []
  · simp [hn] at h
  · simp only [hn, if_false] at h
    cases hm : fs.namei name with
    | error errno => rw [hm] at h; simp at h
    | ok k1 =>
      rw [hm] at h
      simp only [Except.ok.injEq] at h
      subst h
      exact ⟨hn, rfl, (FS.namei_ok fs name k1 hm).1⟩

theorem FS.find_of_namei (fs : FS) (op : String) (name : GoString) (k : Key) (hn : name ≠ [])
    (h : fs.namei name = .ok k) : fs.find op name = .ok k := by
  unfold FS.find
  simp [hn, h]

theorem FS.find_error (fs : FS) (op : String) (name : GoString) (err : GoError)
    (h : fs.find op name = .error err) : ∃ errno, err = .pathError op name errno := by
  unfold FS.find at h
  by_cases hn : name = []
  · simp only [hn, if_true, Except.error.injEq] at h
    exact ⟨_, by rw [← h, hn]⟩
  · simp only [hn, if_false] at h
    cases hm : fs.namei name with
    | error errno => rw [hm] at h; simp only [Except.error.injEq] at h; exact ⟨errno, h.symm⟩
    | ok k1 => rw [hm] at h; simp at h

/-! ## The calls of `moveFileAttempt` -/

theorem os.Open_ok (fs : FS) (name : GoString) (f : File) (h : os.Open fs name = .ok f) :
    name ≠ [] ∧ fs.namei name = .ok (resolve name) ∧ f.key = resolve name ∧
      fs.lookup (resolve name) ≠ none := by
  unfold os.Open at h
  cases hf : fs.find "open" name with
  | error err => rw [hf] at h; simp at h
  | ok k =>
    rw [hf] at h
    obtain ⟨hn, hm, hk⟩ := FS.find_ok fs _ name k hf
    subst hk
    simp only at h
    refine ⟨hn, hm, ?_, ?_⟩
    · split at h
      · simp at h
      · split at h <;> simp at h; rw [← h]
      · split at h <;> simp at h; rw [← h]
    · intro hl; rw [hl] at h; simp at h

theorem os.Create_ok (fs fs1 : FS) (name : GoString) (f : File)
    (h : os.Create fs name = .ok (fs1, f)) :
    name ≠ [] ∧ fs.namei name = .ok (resolve name) ∧ f.key = resolve name ∧
      fs.isDir (resolve name) = false ∧ ∃ m, fs1 = fs.insert (resolve name) (.file [] m) := by
  unfold os.Create at h
  cases hf : fs.find "open" name with
  | error err => rw [hf] at h; simp at h
  | ok k =>
    rw [hf] at h
    obtain ⟨hn, hm, hk⟩ := FS.find_ok fs _ name k hf
    subst hk
    simp only at h
    refine ⟨hn, hm, ?_⟩
    unfold FS.isDir
    split at h
    · simp at h
    · rename_i hl
      split at h
      · simp only [Except.ok.injEq, Prod.mk.injEq] at h
        exact ⟨by rw [← h.2], by rw [hl], _, h.1.symm⟩
      · simp at h
    · rename_i hl
      split at h
      · simp at h
      · split at h
        · simp at h
        · simp at h
        · split at h
          · simp only [Except.ok.injEq, Prod.mk.injEq] at h
            exact ⟨by rw [← h.2], by rw [hl], _, h.1.symm⟩
          · simp at h

theorem ioCopy_ok (fs fs2 : FS) (dst src : File) (h : ioCopy fs dst src = .ok fs2) :
    ∃ content sm written dm, fs.lookup src.key = some (.file content sm) ∧
      fs.lookup dst.key = some (.file written dm) ∧
      fs2 = fs.insert dst.key (.file (written ++ content) dm) := by
  unfold ioCopy at h
  split at h
  · split at h
    · simp only [Except.ok.injEq] at h
      exact ⟨_, _, _, _, by assumption, by assumption, h.symm⟩
    · simp at h
  · simp at h
  · simp at h

theorem os.Remove_ok (fs fs1 : FS) (name : GoString) (h : os.Remove fs name = .ok fs1) :
    name ≠ [] ∧ fs.namei name = .ok (resolve name) ∧ fs1 = fs.erase (resolve name) := by
  unfold os.Remove at h
  cases hf : fs.find "remove" name with
  | error err => rw [hf] at h; simp at h
  | ok k =>
    rw [hf] at h
    obtain ⟨hn, hm, hk⟩ := FS.find_ok fs _ name k hf
    subst hk
    simp only at h
    refine ⟨hn, hm, ?_⟩
    split at h
    · simp at h
    · split at h
      · simp at h
      · split at h
        · simp at h
        · split at h
          · simp only [Except.ok.injEq] at h; exact h.symm
          · split at h
            · simp only [Except.ok.injEq] at h; exact h.symm
            · simp at h

/-- Whether `os.Remove` succeeds depends on the name only through the place its lookup
ends at. -/
theorem os.Remove_of_same_key (fs fs1 : FS) (a b : GoString) (h : os.Remove fs a = .ok fs1)
    (hb : b ≠ []) (hm : fs.namei b = .ok (resolve a)) : os.Remove fs b = .ok fs1 := by
  obtain ⟨ha, hma, _⟩ := os.Remove_ok fs fs1 a h
  unfold os.Remove at h ⊢
  rw [FS.find_of_namei fs _ a _ ha hma] at h
  rw [FS.find_of_namei fs _ b _ hb hm]
  simp only at h ⊢
  cases hl : fs.lookup (resolve a) with
  | none => rw [hl] at h; simp at h
  | some node =>
    rw [hl] at h
    simp only at h ⊢
    by_cases h1 : resolve a = []
    · simp [h1] at h
    · simp only [h1, if_false] at h ⊢
      by_cases h2 : (!fs.dirWritable (resolve a).dropLast) = true
      · simp [h2] at h
      · simp only [h2, Bool.false_eq_true, if_false] at h ⊢
        cases node with
        | file c m => exact h
        | dir m =>
          simp only at h ⊢
          by_cases h3 : fs.children (resolve a) = []
          · simp only [h3, if_true] at h ⊢; exact h
          · simp [h3] at h

/-- Putting a regular file where no directory is does not change where a lookup that
succeeds ends. -/
theorem FS.namei_insert_file (fs : FS) (k : Key) (c : GoString) (m : Mode)
    (hk : fs.isDir k = false) (name : GoString) (r : Key) (h : fs.namei name = .ok r) :
    (fs.insert k (.file c m)).namei name = .ok r := by
  have hstep : ∀ (es : List GoString) (acc cur : List GoString),
      es.foldl (FS.namei.step fs) (.ok acc) = .ok cur →
      es.foldl (FS.namei.step (fs.insert k (.file c m))) (.ok acc) = .ok cur := by
    intro es
    induction es with
    | nil => intro acc cur h1; exact h1
    | cons e es ih =>
      intro acc cur h1
      rw [List.foldl_cons] at h1 ⊢
      rcases FS.namei.step_ok_or_error fs acc e with hs | ⟨errno, hs⟩
      · obtain ⟨_, hdir, _⟩ := FS.namei.step_ok fs acc _ e hs
        have hne : acc.reverse ≠ k := by
          intro h0
          rw [h0, hk] at hdir
          exact Bool.false_ne_true hdir
        have : FS.namei.step (fs.insert k (.file c m)) (.ok acc) e =
            FS.namei.step fs (.ok acc) e := by
          unfold FS.namei.step
          simp only
          rw [FS.lookup_insert_ne fs k _ _ hne]
        rw [this, hs]
        rw [hs] at h1
        exact ih _ _ h1
      · rw [hs, FS.namei.foldl_error] at h1
        simp at h1
  unfold FS.namei at h ⊢
  cases hf : (pathElems name).foldl (FS.namei.step fs) (.ok []) with
  | error errno => rw [hf] at h; simp at h
  | ok cur =>
    rw [hf] at h
    rw [hstep _ _ _ hf]
    exact h

/-- C10. When `moveFileAttempt` opens the source, creates the destination, copies and
closes, the removal of the source fails and the removal of the destination that follows
succeeds, it returns the error of the failed removal, wrapped; afterwards nothing
exists at the destination, and the source is the regular file it was before the call,
with the same content. -/
theorem moveFileAttempt_rollback (fs fs1 fs2 fs3 : FS) (src dst : GoString)
    (sourceFile destFile : File) (err : GoError)
    (hopen : os.Open fs src = .ok sourceFile)
    (hcreate : os.Create fs dst = .ok (fs1, destFile))
    (hcopy : ioCopy fs1 destFile sourceFile = .ok fs2)
    (hremove : os.Remove fs2 src = .error err)
    (hrollback : os.Remove fs2 dst = .ok fs3) :
    moveFileAttempt fs src dst =
      (fs3, some (.wrapError "failed to remove source file: " err)) ∧
    fs3.lookup (resolve dst) = none ∧
    ∃ content mode, fs.lookup (resolve src) = some (.file content mode) ∧
      fs3.lookup (resolve src) = some (.file content mode) := by
  obtain ⟨hsrc, hnsrc, hskey, _⟩ := os.Open_ok fs src sourceFile hopen
  obtain ⟨_, _, hdkey, hnotdir, m, hfs1⟩ := os.Create_ok fs fs1 dst destFile hcreate
  obtain ⟨content, sm, written, dm, hs1, _, hfs2⟩ := ioCopy_ok fs1 fs2 destFile sourceFile hcopy
  obtain ⟨_, _, hfs3⟩ := os.Remove_ok fs2 fs3 dst hrollback
  have hne : resolve src ≠ resolve dst := by
    intro heq
    have h1 : fs1.namei src = .ok (resolve src) := by
      rw [hfs1]
      exact FS.namei_insert_file fs _ _ _ hnotdir src _ hnsrc
    have h2 : fs2.namei src = .ok (resolve src) := by
      rw [hfs2, hdkey]
      refine FS.namei_insert_file fs1 _ _ _ ?_ src _ h1
      unfold FS.isDir
      rw [hfs1, FS.lookup_insert_self]
    rw [heq] at h2
    have := os.Remove_of_same_key fs2 fs3 dst src hrollback hsrc h2
    rw [hremove] at this
    simp at this
  refine ⟨?_, ?_, content, sm, ?_, ?_⟩
  · simp [moveFileAttempt, hopen, hcreate, hcopy, File.Close, hremove, hrollback]
  · rw [hfs3]
    exact FS.lookup_erase_self fs2 _
  · rw [hskey, hfs1, FS.lookup_insert_ne _ _ _ _ hne] at hs1
    exact hs1
  · rw [hfs3, FS.lookup_erase_ne _ _ _ hne, hfs2, hdkey, FS.lookup_insert_ne _ _ _ _ hne]
    rw [hskey] at hs1
    exact hs1

theorem moveFileAttempt_rollback_witness :
    os.Open readOnlyDirFS "root/sub/a.txt".toList =
      .ok ⟨["root".toList, "sub".toList, "a.txt".toList], "root/sub/a.txt".toList⟩ ∧
    moveFileAttempt readOnlyDirFS "root/sub/a.txt".toList "root/a.txt".toList =
      (((readOnlyDirFS.insert ["root".toList, "a.txt".toList] (.file [] .rw)).insert
          ["root".toList, "a.txt".toList] (.file "S".toList .rw)).erase
          ["root".toList, "a.txt".toList],
        some (.wrapError "failed to remove source file: "
          (.pathError "remove" "root/sub/a.txt".toList .EACCES))) ∧
    (((readOnlyDirFS.insert ["root".toList, "a.txt".toList] (.file [] .rw)).insert
          ["root".toList, "a.txt".toList] (.file "S".toList .rw)).erase
          ["root".toList, "a.txt".toList]).lookup (resolve "root/a.txt".toList) = none ∧
    ∃ content mode,
      readOnlyDirFS.lookup (resolve "root/sub/a.txt".toList) = some (.file content mode) ∧
      (((readOnlyDirFS.insert ["root".toList, "a.txt".toList] (.file [] .rw)).insert
          ["root".toList, "a.txt".toList] (.file "S".toList .rw)).erase
          ["root".toList, "a.txt".toList]).lookup (resolve "root/sub/a.txt".toList) =
        some (.file content mode) :=
  ⟨by rfl,
    moveFileAttempt_rollback readOnlyDirFS
      (readOnlyDirFS.insert ["root".toList, "a.txt".toList] (.file [] .rw))
      ((readOnlyDirFS.insert ["root".toList, "a.txt".toList] (.file [] .rw)).insert
        ["root".toList, "a.txt".toList] (.file "S".toList .rw))
      _ "root/sub/a.txt".toList "root/a.txt".toList
      ⟨["root".toList, "sub".toList, "a.txt".toList], "root/sub/a.txt".toList⟩
      ⟨["root".toList, "a.txt".toList], "root/a.txt".toList⟩
      (.pathError "remove" "root/sub/a.txt".toList .EACCES)
      (by rfl) (by rfl) (by rfl) (by rfl) (by rfl)⟩

/-! ## Well-formed states -/

theorem FS.lookup_some_mem (fs : FS) (k : Key) (n : Node) (h : fs.lookup k = some n) :
    (k, n) ∈ fs.nodes := by
  unfold FS.lookup at h
  obtain ⟨e, he, hn⟩ := Option.map_eq_some'.1 h
  have h1 := List.find?_some he
  have h2 := List.mem_of_find?_eq_some he
  simp only [decide_eq_true_eq] at h1
  cases e with
  | mk a b =>
    simp only at h1 hn
    rw [← h1, ← hn]
    exact h2

theorem FS.lookup_ne_none_of_mem (fs : FS) (e : Key × Node) (h : e ∈ fs.nodes) :
    fs.lookup e.1 ≠ none := by
  rw [Ne, FS.lookup_eq_none_iff, not_not]
  exact List.mem_map_of_mem _ h

/-- The lookup in a state filtered by a condition on the keys. -/
theorem FS.lookup_filter_key (fs : FS) (g : Key → Bool) (y : Key) :
    (FS.mk (fs.nodes.filter (fun e => g e.1))).lookup y = if g y then fs.lookup y else none := by
  unfold FS.lookup
  simp only
  induction fs.nodes with
  | nil => simp
  | cons e l ih =>
    by_cases hg : g e.1 = true
    · have hf : List.filter (fun x : Key × Node => g x.1) (e :: l) =
          e :: List.filter (fun x : Key × Node => g x.1) l := by
        simp [List.filter_cons, hg]
      rw [hf]
      by_cases hy : e.1 = y
      · rw [List.find?_cons_of_pos _ (by simpa using hy), List.find?_cons_of_pos _ (by simpa using hy)]
        rw [← hy, hg]
        simp
      · rw [List.find?_cons_of_neg _ (by simpa using hy), List.find?_cons_of_neg _ (by simpa using hy)]
        exact ih
    · have hf : List.filter (fun x : Key × Node => g x.1) (e :: l) =
          List.filter (fun x : Key × Node => g x.1) l := by
        simp [List.filter_cons, hg]
      rw [hf]
      by_cases hy : e.1 = y
      · rw [List.find?_cons_of_pos _ (by simpa using hy)]
        rw [ih, ← hy]
        simp [hg]
      · rw [List.find?_cons_of_neg _ (by simpa using hy)]
        exact ih

theorem FS.isDir_iff (fs : FS) (k : Key) : fs.isDir k = true ↔ ∃ m, fs.lookup k = some (.dir m) := by
  unfold FS.isDir
  cases h : fs.lookup k with
  | none => simp
  | some n => cases n <;> simp

/-- In a well-formed state everything above a node is a directory. -/
theorem FS.WF.isDir_above (fs : FS) (hwf : fs.WF) (k : Key) :
    ∀ t : Key, t ≠ [] → fs.lookup (k ++ t) ≠ none → fs.isDir k = true := by
  intro t
  induction t using List.reverseRecOn with
  | nil => intro h; exact absurd rfl h
  | append_singleton t c ih =>
    intro _ hl
    cases hn : fs.lookup (k ++ (t ++ [c])) with
    | none => exact absurd hn hl
    | some n =>
      have hmem := FS.lookup_some_mem fs _ n hn
      have hpar := hwf.2.2 _ hmem (by simp)
      simp only at hpar
      rw [← List.append_assoc, List.dropLast_concat] at hpar
      by_cases ht : t = []
      · subst ht; simpa using hpar
      · apply ih ht
        obtain ⟨m, hm⟩ := (FS.isDir_iff fs _).1 hpar
        rw [hm]; simp

theorem FS.mem_children (fs : FS) (k : Key) (n : GoString) :
    n ∈ fs.children k ↔ fs.lookup (k ++ [n]) ≠ none := by
  rw [Ne, FS.lookup_eq_none_iff, not_not]
  unfold FS.children
  simp only [List.mem_filterMap, List.mem_map]
  constructor
  · rintro ⟨e, he, h⟩
    refine ⟨e, he, ?_⟩
    by_cases hd : e.1.dropLast = k
    · simp only [hd, if_true] at h
      rw [← hd]
      rw [List.getLast?_eq_some_iff] at h
      obtain ⟨ys, hys⟩ := h
      rw [hys, List.dropLast_concat]
    · simp [hd] at h
  · rintro ⟨e, he, h⟩
    refine ⟨e, he, ?_⟩
    rw [h]
    simp

theorem FS.WF.entryName (fs : FS) (hwf : fs.WF) (k : Key) (h : fs.lookup k ≠ none) :
    ∀ c ∈ k, isEntryName c = true := by
  cases hn : fs.lookup k with
  | none => exact absurd hn h
  | some n => exact hwf.2.1 _ (FS.lookup_some_mem fs k n hn)

theorem Key.above_iff (k e : Key) : Key.above k e = true ↔ ∃ t, e = k ++ t := by
  unfold Key.above
  rw [ List.isPrefixOf_iff_prefix]
  constructor
  · rintro ⟨t, ht⟩; exact ⟨t, ht.symm⟩
  · rintro ⟨t, ht⟩; exact ⟨t, ht.symm⟩

/-- Removing everything at and below a key keeps a state well formed. -/
theorem FS.WF.filter_above (fs : FS) (hwf : fs.WF) (k : Key) :
    (FS.mk (fs.nodes.filter (fun e => !Key.above k e.1))).WF := by
  refine ⟨?_, ?_, ?_⟩
  · exact hwf.1.sublist ((List.filter_sublist _).map _)
  · intro e he
    exact hwf.2.1 e (List.mem_of_mem_filter he)
  · intro e he hne
    have hmem := List.mem_of_mem_filter he
    have hkeep := (List.mem_filter.1 he).2
    have hpar := hwf.2.2 e hmem hne
    obtain ⟨m, hm⟩ := (FS.isDir_iff fs _).1 hpar
    rw [FS.isDir_iff]
    refine ⟨m, ?_⟩
    rw [FS.lookup_filter_key fs (fun x => !Key.above k x)]
    have : Key.above k e.1.dropLast = false := by
      by_contra hcon
      rw [Bool.not_eq_false, Key.above_iff] at hcon
      obtain ⟨t, ht⟩ := hcon
      have : Key.above k e.1 = true := by
        rw [Key.above_iff]
        refine ⟨t ++ [e.1.getLast hne], ?_⟩
        rw [← List.append_assoc, ← ht, List.dropLast_append_getLast]
      rw [this] at hkeep
      simp at hkeep
    simp [this, hm]

/-! ## The lookup of a joined path -/

theorem Clean_entry (n : GoString) (h : isEntryName n = true) : filepath.Clean n = n := by
  obtain ⟨h1, _, _, h4⟩ := (isEntryName_iff n).1 h
  have hroot : ¬ n.head? = some '/' := by
    intro hh
    cases n with
    | nil => exact h1 rfl
    | cons c t =>
      simp only [List.head?_cons, Option.some.injEq] at hh
      exact h4 (by rw [hh]; exact List.mem_cons_self _ _)
  unfold filepath.Clean
  simp [h1, hroot, pathElems_of_no_sep n h4, Clean.step_entryName _ _ _ h, strings.JoinSlash,
    List.intercalate]

/-- The elements of a path made by `filepath.Join` from a directory path and the name of
an entry: after a lead of empty and `..` elements come the names of the key of the
directory and the name of the entry. -/
theorem pathElems_Join (q n : GoString) (hn : isEntryName n = true) :
    ∃ lead, (∀ e ∈ lead, e = [] ∨ e = ['.', '.']) ∧
      pathElems (filepath.Join [q, n]) = lead ++ (resolve q ++ [n]) := by
  have hne : n ≠ [] := ((isEntryName_iff n).1 hn).1
  have hsep := entryName_no_sep n hn
  unfold filepath.Join
  by_cases hq : q = []
  · subst hq
    simp only [List.dropWhile, decide_True, hne, decide_False]
    have hj : strings.JoinSlash [n] = n := by simp [strings.JoinSlash, List.intercalate]
    rw [hj, Clean_entry n hn, pathElems_of_no_sep n hsep, resolve_nil]
    exact ⟨[], by simp, rfl⟩
  · simp only [List.dropWhile, hq, decide_False]
    have hj : strings.JoinSlash [q, n] = q ++ '/' :: n := by
      simp [strings.JoinSlash, List.intercalate]
    rw [hj]
    obtain ⟨hT, k1, hF⟩ := Clean.foldl_stacks (pathElems q) [] 0 (pathElems_no_sep q) (by simp)
    simp only [List.replicate_zero, List.append_nil] at hF
    have hx : q ++ '/' :: n ≠ [] := by simp
    have hhead : (q ++ '/' :: n).head? = q.head? := by
      cases q with
      | nil => exact absurd rfl hq
      | cons c t => rfl
    unfold filepath.Clean
    simp only [hx, if_false, pathElems_append_sep, pathElems_of_no_sep n hsep, List.foldl_append,
      List.foldl_cons, List.foldl_nil, Clean.step_entryName _ _ _ hn, hhead]
    by_cases hr : q.head? = some '/'
    · simp only [hr, decide_True, if_true, List.reverse_cons]
      refine ⟨[[]], by simp, ?_⟩
      rw [pathElems_cons, if_pos rfl, pathElems_joinSlash _ (by simp)]
      · rfl
      · intro l hl
        rcases List.mem_append.1 hl with hl | hl
        · exact entryName_no_sep l (hT l (List.mem_reverse.1 hl))
        · rw [List.mem_singleton.1 hl]; exact hsep
    · simp only [hr, decide_False, Bool.false_eq_true, if_false, List.cons_ne_nil,
        List.reverse_cons]
      rw [hF]
      refine ⟨List.replicate k1 ['.', '.'], fun e he => Or.inr (List.eq_of_mem_replicate he), ?_⟩
      rw [pathElems_joinSlash _ (by simp)]
      · simp [resolve, List.reverse_append]
      · intro l hl
        rcases List.mem_append.1 hl with hl | hl
        · rw [List.mem_reverse, List.mem_append] at hl
          rcases hl with hl | hl
          · exact entryName_no_sep l (hT l hl)
          · rw [List.eq_of_mem_replicate hl]; decide
        · rw [List.mem_singleton.1 hl]; exact hsep

theorem FS.namei.step_eq (fs : FS) (cur : List GoString) (e : GoString) :
    FS.namei.step fs (.ok cur) e =
      match fs.lookup cur.reverse with
      | none => .error .ENOENT
      | some (Node.file _ _) => .error .ENOTDIR
      | some (Node.dir m) =>
        if e = [] ∨ m.x = true then .ok (Clean.step true cur e) else .error .EACCES := rfl

theorem FS.namei.foldl_names (fs : FS) :
    ∀ (names : List GoString) (cur : List GoString),
      (∀ n ∈ names, isEntryName n = true) →
      names.foldl (FS.namei.step fs) (.ok cur) =
        match fs.descend cur.reverse names with
        | .ok k => .ok k.reverse
        | .error errno => .error errno := by
  intro names
  induction names with
  | nil => intro cur _; simp [FS.descend]
  | cons n names ih =>
    intro cur hall
    have hn := hall n (List.mem_cons_self _ _)
    have hne : n ≠ [] := ((isEntryName_iff n).1 hn).1
    rw [List.foldl_cons, FS.namei.step_eq]
    unfold FS.descend
    cases fs.lookup cur.reverse with
    | none => simp [FS.namei.foldl_error]
    | some node =>
      cases node with
      | file c m => simp [FS.namei.foldl_error]
      | dir m =>
        simp only [hne, false_or]
        by_cases hx : m.x = true
        · simp only [hx, if_true, Clean.step_entryName _ _ _ hn]
          rw [ih (n :: cur) (fun y hy => hall y (List.mem_cons_of_mem _ hy))]
          simp
        · simp [hx, FS.namei.foldl_error]

theorem FS.namei.foldl_lead (fs : FS) (n : GoString) (hn : n ≠ []) :
    ∀ lead : List GoString, (∀ e ∈ lead, e = [] ∨ e = ['.', '.']) →
      lead.foldl (FS.namei.step fs) (.ok []) = .ok [] ∨
      ∃ errno, lead.foldl (FS.namei.step fs) (.ok []) = .error errno ∧
        FS.namei.step fs (.ok []) n = .error errno := by
  intro lead
  induction lead with
  | nil => intro _; left; rfl
  | cons e lead ih =>
    intro hlead
    have he := hlead e (List.mem_cons_self _ _)
    have ih1 := ih (fun y hy => hlead y (List.mem_cons_of_mem _ hy))
    have hA := FS.namei.step_eq fs [] n
    have hstep : Clean.step true [] e = [] := by
      rcases he with he | he <;> simp [he, Clean.step]
    rw [List.foldl_cons, FS.namei.step_eq fs [] e]
    cases hl : fs.lookup ([] : List GoString).reverse with
    | none =>
      rw [hl] at hA
      exact Or.inr ⟨.ENOENT, FS.namei.foldl_error fs _ _, hA⟩
    | some node =>
      rw [hl] at hA
      cases node with
      | file c m => exact Or.inr ⟨.ENOTDIR, FS.namei.foldl_error fs _ _, hA⟩
      | dir m =>
        simp only [hn, false_or] at hA
        simp only
        by_cases hx : m.x = true
        · simp only [hx, or_true, if_true, hstep]
          exact ih1
        · simp only [hx, if_false, Bool.false_eq_true] at hA
          rcases he with he | he
          · simp only [he, true_or, if_true]
            rw [he] at hstep
            rw [hstep]
            exact ih1
          · have hne : ¬ (e = [] ∨ m.x = true) := by simp [he, hx]
            simp only [hne, if_false]
            exact Or.inr ⟨.EACCES, FS.namei.foldl_error fs _ _, hA⟩

/-- The lookup of a path made by `filepath.Join` goes down the names of its key. -/
theorem FS.namei_joined (fs : FS) (d : GoString) (h : IsJoined d) :
    fs.namei d = fs.descend [] (resolve d) := by
  obtain ⟨q, n, hn, hd⟩ := h
  subst hd
  obtain ⟨lead, hlead, hel⟩ := pathElems_Join q n hn
  have hres : resolve (filepath.Join [q, n]) = resolve q ++ [n] := resolve_Join q n hn
  have hnames : ∀ y ∈ resolve q ++ [n], isEntryName y = true := by
    intro y hy
    rcases List.mem_append.1 hy with hy | hy
    · exact resolve_entryNames q y hy
    · rw [List.mem_singleton.1 hy]; exact hn
  unfold FS.namei
  rw [hel, hres]
  cases hk : resolve q ++ [n] with
  | nil => simp at hk
  | cons a t =>
    rw [hk] at hnames
    have ha : a ≠ [] := ((isEntryName_iff a).1 (hnames a (List.mem_cons_self _ _))).1
    have hfold : (lead ++ a :: t).foldl (FS.namei.step fs) (.ok []) =
        (a :: t).foldl (FS.namei.step fs) (.ok []) := by
      rw [List.foldl_append]
      rcases FS.namei.foldl_lead fs a ha lead hlead with h1 | ⟨errno, h1, h2⟩
      · rw [h1]
      · rw [h1, FS.namei.foldl_error, List.foldl_cons, h2, FS.namei.foldl_error]
    rw [hfold, FS.namei.foldl_names fs (a :: t) [] hnames]
    simp only [List.reverse_nil]
    cases fs.descend [] (a :: t) with
    | error errno => rfl
    | ok k => simp

theorem FS.descend_ok (fs : FS) : ∀ (ns : List GoString) (cur k : Key),
    fs.descend cur ns = .ok k → k = cur ++ ns := by
  intro ns
  induction ns with
  | nil => intro cur k h; simp only [FS.descend, Except.ok.injEq] at h; simp [h]
  | cons n ns ih =>
    intro cur k h
    unfold FS.descend at h
    split at h
    · simp at h
    · simp at h
    · split at h
      · rw [ih _ _ h]; simp
      · simp at h

theorem FS.dirSearchable_iff (fs : FS) (k : Key) :
    fs.dirSearchable k = true ↔ ∃ m, fs.lookup k = some (.dir m) ∧ m.x = true := by
  unfold FS.dirSearchable
  cases h : fs.lookup k with
  | none => simp
  | some n => cases n <;> simp

/-- Going down succeeds when every directory on the way exists and may be searched. -/
theorem FS.descend_of_searchable (fs : FS) : ∀ (ns : List GoString) (cur : Key),
    (∀ i, i < ns.length → fs.dirSearchable (cur ++ ns.take i) = true) →
    fs.descend cur ns = .ok (cur ++ ns) := by
  intro ns
  induction ns with
  | nil => intro cur _; simp [FS.descend]
  | cons n ns ih =>
    intro cur h
    obtain ⟨m, hm, hx⟩ := (FS.dirSearchable_iff fs cur).1 (by simpa using h 0 (by simp))
    unfold FS.descend
    simp only [hm, hx, if_true]
    rw [ih (cur ++ [n]) (fun i hi => by
      have := h (i + 1) (by simpa using hi)
      simpa using this)]
    simp

/-- Going down fails with `ENOENT` only where a directory on the way is missing. -/
theorem FS.descend_enoent (fs : FS) : ∀ (ns : List GoString) (cur : Key),
    fs.descend cur ns = .error .ENOENT →
    ∃ i, i < ns.length ∧ fs.lookup (cur ++ ns.take i) = none := by
  intro ns
  induction ns with
  | nil => intro cur h; simp [FS.descend] at h
  | cons n ns ih =>
    intro cur h
    unfold FS.descend at h
    cases hl : fs.lookup cur with
    | none => exact ⟨0, by simp, by simpa using hl⟩
    | some node =>
      rw [hl] at h
      cases node with
      | file c m => simp at h
      | dir m =>
        simp only at h
        by_cases hx : m.x = true
        · simp only [hx, if_true] at h
          obtain ⟨i, hi, hnone⟩ := ih _ h
          exact ⟨i + 1, by simpa using hi, by simpa using hnone⟩
        · simp [hx] at h

/-- Where every directory on the way is either missing or may be searched, going down
succeeds or fails with `ENOENT`. -/
theorem FS.descend_ok_or_enoent (fs : FS) : ∀ (ns : List GoString) (cur : Key),
    (∀ i, i < ns.length → fs.lookup (cur ++ ns.take i) = none ∨
      fs.dirSearchable (cur ++ ns.take i) = true) →
    fs.descend cur ns = .ok (cur ++ ns) ∨ fs.descend cur ns = .error .ENOENT := by
  intro ns
  induction ns with
  | nil => intro cur _; left; simp [FS.descend]
  | cons n ns ih =>
    intro cur h
    unfold FS.descend
    rcases h 0 (by simp) with h0 | h0
    · right
      simp only [List.take_zero, List.append_nil] at h0
      simp [h0]
    · obtain ⟨m, hm, hx⟩ := (FS.dirSearchable_iff fs cur).1 (by simpa using h0)
      simp only [hm, hx, if_true]
      rcases ih (cur ++ [n]) (fun i hi => by
        have := h (i + 1) (by simpa using hi)
        simpa using this) with h1 | h1
      · left; rw [h1]; simp
      · right; exact h1

/-! ## `getUniqueFilename` -/

theorem candidate_ne_nil (p : GoString) (k : Nat) : getUniqueFilename.candidate p k ≠ [] := by
  intro h
  have := resolve_candidate p k
  rw [h, resolve_nil] at this
  simp at this

theorem candidate_joined (p : GoString) (k : Nat) : IsJoined (getUniqueFilename.candidate p k) :=
  ⟨_, _, candidate_entryName _ (afterLastSlash_no_sep p) k, rfl⟩

theorem FS.reachable_iff (fs : FS) (k : Key) :
    fs.reachable k = true ↔ ∀ i, i < k.length + 1 → fs.dirSearchable (k.take i) = true := by
  unfold FS.reachable
  rw [List.all_eq_true]
  constructor
  · intro h i hi; exact h i (List.mem_range.2 hi)
  · intro h i hi; exact h i (List.mem_range.1 hi)

/-- The lookup of a candidate ends at its key when the directory of the path can be
reached. -/
theorem FS.namei_candidate (fs : FS) (p : GoString) (k : Nat)
    (hdir : fs.reachable (resolve (path.Split p).1) = true) :
    fs.namei (getUniqueFilename.candidate p k) =
      .ok (resolve (getUniqueFilename.candidate p k)) := by
  rw [FS.namei_joined fs _ (candidate_joined p k)]
  have hres := resolve_candidate p k
  apply FS.descend_of_searchable fs _ []
  intro i hi
  rw [hres] at hi ⊢
  simp only [List.length_append, List.length_singleton] at hi
  rw [List.nil_append, List.take_append_of_le_length (by omega)]
  exact (FS.reachable_iff fs _).1 hdir i (by simp [path.Split]; omega)

theorem os.Stat_candidate_free (fs : FS) (p : GoString) (k : Nat)
    (hdir : fs.reachable (resolve (path.Split p).1) = true)
    (h : fs.lookup (resolve (getUniqueFilename.candidate p k)) = none) :
    os.Stat fs (getUniqueFilename.candidate p k) =
      .error (.pathError "stat" (getUniqueFilename.candidate p k) .ENOENT) := by
  unfold os.Stat
  rw [FS.find_of_namei fs _ _ _ (candidate_ne_nil p k) (FS.namei_candidate fs p k hdir)]
  simp [h]

theorem os.Stat_candidate_taken (fs : FS) (p : GoString) (k : Nat)
    (hdir : fs.reachable (resolve (path.Split p).1) = true)
    (h : fs.lookup (resolve (getUniqueFilename.candidate p k)) ≠ none) :
    ∃ info, os.Stat fs (getUniqueFilename.candidate p k) = .ok info := by
  unfold os.Stat
  rw [FS.find_of_namei fs _ _ _ (candidate_ne_nil p k) (FS.namei_candidate fs p k hdir)]
  simp only
  cases hl : fs.lookup (resolve (getUniqueFilename.candidate p k)) with
  | none => exact absurd hl h
  | some n => cases n <;> exact ⟨_, rfl⟩

theorem getUniqueFilename.loop_finds (fs : FS) (p : GoString) (k : Nat)
    (hdir : fs.reachable (resolve (path.Split p).1) = true)
    (hfree : fs.lookup (resolve (getUniqueFilename.candidate p k)) = none) :
    ∀ (fuel c : Nat), c ≤ k → k - c < fuel →
      (∀ j, c ≤ j → j < k → fs.lookup (resolve (getUniqueFilename.candidate p j)) ≠ none) →
      getUniqueFilename.loop fs (path.Split p).1
        ((path.Split p).2.take
          ((path.Split p).2.length - (path.Ext (path.Split p).2).length))
        (path.Ext (path.Split p).2) fuel c = some (getUniqueFilename.candidate p k) := by
  intro fuel
  induction fuel with
  | zero => intro c _ h _; omega
  | succ fuel ih =>
    intro c hck hfuel htaken
    unfold getUniqueFilename.loop
    by_cases hc : c = k
    · subst hc
      have := os.Stat_candidate_free fs p c hdir hfree
      unfold getUniqueFilename.candidate at this
      rw [this]
      simp [os.IsNotExist, os.underlyingError, getUniqueFilename.candidate]
    · obtain ⟨info, hinfo⟩ :=
        os.Stat_candidate_taken fs p c hdir (htaken c (le_refl _) (by omega))
      unfold getUniqueFilename.candidate at hinfo
      rw [hinfo]
      exact ih (c + 1) (by omega) (by omega) (fun j h1 h2 => htaken j (by omega) h2)

theorem candidate_free_exists (fs : FS) (p : GoString) :
    ∃ k, 1 ≤ k ∧ k ≤ fs.nodes.length + 1 ∧
      fs.lookup (resolve (getUniqueFilename.candidate p k)) = none := by
  by_contra hcon
  push_neg at hcon
  have hsub : (List.range' 1 (fs.nodes.length + 1)).map
      (fun j => resolve (getUniqueFilename.candidate p j)) ⊆ fs.nodes.map Prod.fst := by
    intro key hkey
    obtain ⟨j, hj, rfl⟩ := List.mem_map.1 hkey
    rw [List.mem_range'_1] at hj
    have := hcon j hj.1 (by omega)
    rw [Ne, FS.lookup_eq_none_iff, not_not] at this
    exact this
  have hnd : ((List.range' 1 (fs.nodes.length + 1)).map
      (fun j => resolve (getUniqueFilename.candidate p j))).Nodup :=
    (List.nodup_range' 1 (fs.nodes.length + 1)).map
      (fun a b h => resolve_candidate_injective p a b h)
  have := (hnd.subperm hsub).length_le
  simp at this

/-- C8, at a path that runs through a regular file: in a well-formed state where
`root/a.txt` is a regular file, the probe `os.Stat` of the first candidate for
`root/a.txt/b.txt` fails with `ENOTDIR`, which `os.IsNotExist` does not accept, so does
every later probe, and `getUniqueFilename` returns for no number of probes. -/
theorem getUniqueFilename_never_returns :
    fileInTheWayFS.WF ∧
    fileInTheWayFS.lookup ["root".toList, "a.txt".toList] = some (.file "D".toList .rw) ∧
    getUniqueFilename.candidate "root/a.txt/b.txt".toList 1 = "root/a.txt/b_1.txt".toList ∧
    os.Stat fileInTheWayFS "root/a.txt/b_1.txt".toList =
      .error (.pathError "stat" "root/a.txt/b_1.txt".toList .ENOTDIR) ∧
    os.IsNotExist (some (.pathError "stat" "root/a.txt/b_1.txt".toList .ENOTDIR)) = false ∧
    (∀ c, os.Stat fileInTheWayFS (getUniqueFilename.candidate "root/a.txt/b.txt".toList c) =
      .error (.pathError "stat" (getUniqueFilename.candidate "root/a.txt/b.txt".toList c)
        .ENOTDIR)) ∧
    ∀ fuel, getUniqueFilename fuel fileInTheWayFS "root/a.txt/b.txt".toList = none := by
  have hres : resolve (path.Split "root/a.txt/b.txt".toList).1 =
      ["root".toList, "a.txt".toList] := by decide
  have h0 : fileInTheWayFS.lookup [] = some (.dir .rwx) := by decide
  have h1 : fileInTheWayFS.lookup ["root".toList] = some (.dir .rwx) := by decide
  have h2 : fileInTheWayFS.lookup ["root".toList, "a.txt".toList] =
      some (.file "D".toList .rw) := by decide
  have hstat : ∀ c, os.Stat fileInTheWayFS
      (getUniqueFilename.candidate "root/a.txt/b.txt".toList c) =
      .error (.pathError "stat" (getUniqueFilename.candidate "root/a.txt/b.txt".toList c)
        .ENOTDIR) := by
    intro c
    have hn : fileInTheWayFS.namei (getUniqueFilename.candidate "root/a.txt/b.txt".toList c) =
        .error .ENOTDIR := by
      rw [FS.namei_joined _ _ (candidate_joined _ c), resolve_candidate]
      have hres1 : resolve (uptoLastSlash "root/a.txt/b.txt".toList) =
          ["root".toList, "a.txt".toList] := hres
      rw [hres1]
      simp only [List.cons_append, List.nil_append, FS.descend, h0, h1, h2, Mode.rwx, if_true]
    unfold os.Stat FS.find
    rw [if_neg (candidate_ne_nil _ c), hn]
  have hloop : ∀ fuel c, getUniqueFilename.loop fileInTheWayFS
      (path.Split "root/a.txt/b.txt".toList).1
      ((path.Split "root/a.txt/b.txt".toList).2.take
        ((path.Split "root/a.txt/b.txt".toList).2.length -
          (path.Ext (path.Split "root/a.txt/b.txt".toList).2).length))
      (path.Ext (path.Split "root/a.txt/b.txt".toList).2) fuel c = none := by
    intro fuel
    induction fuel with
    | zero => intro c; rfl
    | succ fuel ih =>
      intro c
      unfold getUniqueFilename.loop
      have := hstat c
      unfold getUniqueFilename.candidate at this
      rw [this]
      simp only [os.IsNotExist, os.underlyingError]
      exact ih (c + 1)
  refine ⟨by decide, h2, by decide, by rfl, by rfl, hstat, ?_⟩
  intro fuel
  unfold getUniqueFilename
  exact hloop fuel 1

/-- C8, as amended. When the directory of the path can be reached (it and every directory
above it exist and may be searched), `getUniqueFilename` returns, and what it returns is
the candidate `dir/name_k.ext` for the least `k ≥ 1` whose candidate does not exist:
with `k` probes or more (and `k` is at most the number of nodes plus one) the result is
that candidate; it does not exist in the state probed; every candidate with a smaller
counter exists; the candidate is the directory part of the input joined with the file
part in which `_k` stands before the extension `path.Ext` finds, and it resolves to the
entry of that name in the directory of the input. -/
theorem getUniqueFilename_first_free (fs : FS) (p : GoString)
    (hdir : fs.reachable (resolve (path.Split p).1) = true) :
    ∃ k name, 1 ≤ k ∧ k ≤ fs.nodes.length + 1 ∧
      (∀ fuel, k ≤ fuel → getUniqueFilename fuel fs p = some (getUniqueFilename.candidate p k)) ∧
      fs.lookup (resolve (getUniqueFilename.candidate p k)) = none ∧
      os.Stat fs (getUniqueFilename.candidate p k) =
        .error (.pathError "stat" (getUniqueFilename.candidate p k) .ENOENT) ∧
      (∀ j, 1 ≤ j → j < k → fs.lookup (resolve (getUniqueFilename.candidate p j)) ≠ none) ∧
      (∀ j, 1 ≤ j → j < k → ∃ info, os.Stat fs (getUniqueFilename.candidate p j) = .ok info) ∧
      name ++ path.Ext (path.Split p).2 = (path.Split p).2 ∧
      getUniqueFilename.candidate p k =
        path.Join [(path.Split p).1,
          name ++ '_' :: (formatDecimal k ++ path.Ext (path.Split p).2)] ∧
      resolve (getUniqueFilename.candidate p k) =
        resolve (path.Split p).1 ++
          [name ++ '_' :: (formatDecimal k ++ path.Ext (path.Split p).2)] := by
  have hex : ∃ k, 1 ≤ k ∧ fs.lookup (resolve (getUniqueFilename.candidate p k)) = none := by
    obtain ⟨k, h1, _, h3⟩ := candidate_free_exists fs p
    exact ⟨k, h1, h3⟩
  obtain ⟨k0, hk1, hk2, hk3⟩ := candidate_free_exists fs p
  have hspec := Nat.find_spec hex
  have hmin : ∀ j, 1 ≤ j → j < Nat.find hex →
      fs.lookup (resolve (getUniqueFilename.candidate p j)) ≠ none :=
    fun j h1 h2 h3 => Nat.find_min hex h2 ⟨h1, h3⟩
  refine ⟨Nat.find hex, (path.Split p).2.take
    ((path.Split p).2.length - (path.Ext (path.Split p).2).length), hspec.1, ?_, ?_, hspec.2,
    os.Stat_candidate_free fs p _ hdir hspec.2, hmin,
    fun j h1 h2 => os.Stat_candidate_taken fs p j hdir (hmin j h1 h2),
    take_append_Ext _, rfl, resolve_candidate p _⟩
  · exact le_trans (Nat.find_min' hex ⟨hk1, hk3⟩) hk2
  · intro fuel hfuel
    have h1 := hspec.1
    exact getUniqueFilename.loop_finds fs p _ hdir hspec.2 fuel 1 h1 (by omega)
      (fun j hj1 hj2 => hmin j hj1 hj2)

theorem getUniqueFilename_first_free_witness :
    takenNamesFS.reachable (resolve (path.Split "root/a.txt".toList).1) = true ∧
    getUniqueFilename 5 takenNamesFS "root/a.txt".toList = some "root/a_2.txt".toList ∧
    ∃ k, 1 ≤ k ∧ k ≤ 5 ∧
      getUniqueFilename 5 takenNamesFS "root/a.txt".toList =
        some (getUniqueFilename.candidate "root/a.txt".toList k) ∧
      takenNamesFS.lookup (resolve (getUniqueFilename.candidate "root/a.txt".toList k)) = none := by
  obtain ⟨k, _, h1, h2, h3, h4, _⟩ :=
    getUniqueFilename_first_free takenNamesFS "root/a.txt".toList (by decide)
  exact ⟨by decide, by decide!, k, h1, h2, h3 5 h2, h4⟩

/-! ## The walk of `deleteSubDirs` -/

theorem os.Lstat_of_namei (fs : FS) (p : GoString) (hp : p ≠ [])
    (hn : fs.namei p = .ok (resolve p)) (h : fs.lookup (resolve p) ≠ none) :
    ∃ info, os.Lstat fs p = .ok info ∧ info.IsDir = fs.isDir (resolve p) := by
  unfold os.Lstat FS.isDir
  rw [FS.find_of_namei fs _ _ _ hp hn]
  simp only
  cases hl : fs.lookup (resolve p) with
  | none => exact absurd hl h
  | some n => cases n <;> exact ⟨_, rfl, rfl⟩

theorem os.Lstat_ok (fs : FS) (p : GoString) (info : FileInfo) (h : os.Lstat fs p = .ok info) :
    p ≠ [] ∧ fs.namei p = .ok (resolve p) ∧ fs.lookup (resolve p) ≠ none ∧
      info.IsDir = fs.isDir (resolve p) := by
  unfold os.Lstat at h
  cases hf : fs.find "lstat" p with
  | error err => rw [hf] at h; simp at h
  | ok k =>
    obtain ⟨hp, hn, hk⟩ := FS.find_ok fs _ _ _ hf
    subst hk
    rw [hf] at h
    simp only at h
    refine ⟨hp, hn, ?_, ?_⟩
    · intro hl; rw [hl] at h; simp at h
    · unfold FS.isDir
      cases hl : fs.lookup (resolve p) with
      | none => rw [hl] at h; simp at h
      | some n =>
        rw [hl] at h
        cases n <;> simp only [Except.ok.injEq] at h <;> rw [← h]

theorem os.Lstat_error (fs : FS) (p : GoString) (err : GoError) (h : os.Lstat fs p = .error err) :
    ∃ op n errno, err = GoError.pathError op n errno := by
  unfold os.Lstat at h
  cases hf : fs.find "lstat" p with
  | error e =>
    rw [hf] at h
    simp only [Except.error.injEq] at h
    obtain ⟨errno, he⟩ := FS.find_error fs _ _ _ hf
    exact ⟨_, _, errno, by rw [← h, he]⟩
  | ok k =>
    rw [hf] at h
    simp only at h
    cases hl : fs.lookup k with
    | none =>
      rw [hl] at h
      simp only [Except.error.injEq] at h
      exact ⟨_, _, _, h.symm⟩
    | some n => rw [hl] at h; cases n <;> simp at h

theorem sort.mem_Strings (names : List GoString) (n : GoString) :
    n ∈ sort.Strings names ↔ n ∈ names :=
  (List.perm_insertionSort _ names).mem_iff

theorem filepath.readDirNames_dir (fs : FS) (p : GoString)
    (h : fs.isDir (resolve p) = true) :
    (∃ names, filepath.readDirNames fs p = .ok names ∧
      ∀ n, n ∈ names ↔ fs.lookup (resolve p ++ [n]) ≠ none) ∨
    ∃ op n errno, filepath.readDirNames fs p = .error (.pathError op n errno) := by
  obtain ⟨m, hm⟩ := (FS.isDir_iff fs _).1 h
  unfold filepath.readDirNames
  cases hf : fs.find "open" p with
  | error e =>
    right
    obtain ⟨errno, he⟩ := FS.find_error fs _ _ _ hf
    exact ⟨_, _, errno, by rw [he]⟩
  | ok k =>
    obtain ⟨_, _, hk⟩ := FS.find_ok fs _ _ _ hf
    subst hk
    simp only [hm]
    by_cases hr : m.r = true
    · left
      refine ⟨sort.Strings (fs.children (resolve p)), by simp [hr], ?_⟩
      intro n
      rw [sort.mem_Strings, FS.mem_children]
    · right
      exact ⟨"open", p, .EACCES, by simp [hr]⟩

theorem resolve_ne_root (R : GoString) (p : GoString) (s : Key) (hs : s ≠ [])
    (h : resolve p = resolve R ++ s) : p ≠ R := by
  intro heq
  rw [heq] at h
  have := congrArg List.length h
  simp at this
  exact hs this

theorem strings.JoinSlash_cons_cons (a b : GoString) (l : List GoString) :
    strings.JoinSlash (a :: b :: l) = a ++ '/' :: strings.JoinSlash (b :: l) := by
  simp [strings.JoinSlash, List.intercalate]

theorem strings.JoinSlash_concat (n : GoString) :
    ∀ l : List GoString, ∃ pre, strings.JoinSlash (l ++ [n]) = pre ++ n := by
  intro l
  induction l with
  | nil => exact ⟨[], by simp [strings.JoinSlash, List.intercalate]⟩
  | cons a l ih =>
    obtain ⟨pre, hpre⟩ := ih
    cases l with
    | nil =>
      refine ⟨a ++ ['/'], ?_⟩
      simp [strings.JoinSlash, List.intercalate]
    | cons b l =>
      refine ⟨a ++ '/' :: pre, ?_⟩
      rw [List.cons_append, List.cons_append, strings.JoinSlash_cons_cons, ← List.cons_append,
        hpre]
      simp

theorem os.endsWithDot_append_entry (pre n : GoString) (h : isEntryName n = true) :
    os.endsWithDot (pre ++ n) = false := by
  obtain ⟨h1, h2, _, h4⟩ := (isEntryName_iff n).1 h
  unfold os.endsWithDot
  rw [Bool.or_eq_false_iff, decide_eq_false_iff_not, decide_eq_false_iff_not]
  constructor
  · intro heq
    have hlen := congrArg List.length heq
    simp only [List.length_append, List.length_singleton] at hlen
    have hn : 0 < n.length := List.length_pos.2 h1
    have hp : pre = [] := List.length_eq_zero.1 (by omega)
    subst hp
    exact h2 (by simpa using heq)
  · rw [List.reverse_append]
    cases hr : n.reverse with
    | nil => exact absurd (List.reverse_eq_nil_iff.1 hr) h1
    | cons c cs =>
      cases cs with
      | nil =>
        have hn : n = [c] := by
          have := congrArg List.reverse hr
          simpa using this
        intro heq
        have hc : c = '.' := by
          cases hpre : pre.reverse with
          | nil => rw [hpre] at heq; simp at heq
          | cons x xs => rw [hpre] at heq; simp at heq; exact heq.1
        exact h2 (by rw [hn, hc])
      | cons c2 cs =>
        intro heq
        simp only [List.cons_append, List.take_succ_cons, List.take_zero, List.cons.injEq,
          and_true] at heq
        apply h4
        have : c2 ∈ n.reverse := by rw [hr]; simp
        rw [← heq.2]
        exact List.mem_reverse.1 this

theorem filepath.Clean_ends_entry (x : GoString) (es : List GoString) (n : GoString)
    (hx : x ≠ []) (hes : pathElems x = es ++ [n]) (h : isEntryName n = true) :
    ∃ pre, filepath.Clean x = pre ++ n := by
  unfold filepath.Clean
  simp only [hx, if_false, hes, List.foldl_append, List.foldl_cons, List.foldl_nil]
  by_cases hr : x.head? = some '/'
  · simp only [hr, decide_True, if_true, Clean.step_entryName _ _ _ h, List.reverse_cons]
    obtain ⟨pre, hpre⟩ := strings.JoinSlash_concat n (es.foldl (Clean.step true) []).reverse
    exact ⟨'/' :: pre, by rw [hpre]; rfl⟩
  · simp only [hr, decide_False, Bool.false_eq_true, if_false, Clean.step_entryName _ _ _ h,
      List.reverse_cons]
    obtain ⟨pre, hpre⟩ := strings.JoinSlash_concat n (es.foldl (Clean.step false) []).reverse
    exact ⟨pre, by simp [hpre]⟩

theorem os.endsWithDot_Join (p n : GoString) (h : isEntryName n = true) :
    os.endsWithDot (filepath.Join [p, n]) = false := by
  have hne : n ≠ [] := ((isEntryName_iff n).1 h).1
  have hsep := entryName_no_sep n h
  unfold filepath.Join
  by_cases hp : p = []
  · subst hp
    simp only [List.dropWhile, decide_True, hne, decide_False]
    have hj : strings.JoinSlash [n] = n := by simp [strings.JoinSlash, List.intercalate]
    rw [hj]
    obtain ⟨pre, hpre⟩ := filepath.Clean_ends_entry n [] n hne
      (by rw [pathElems_of_no_sep n hsep]; rfl) h
    rw [hpre]
    exact os.endsWithDot_append_entry pre n h
  · simp only [List.dropWhile, hp, decide_False]
    have hj : strings.JoinSlash [p, n] = p ++ '/' :: n := by
      simp [strings.JoinSlash, List.intercalate]
    rw [hj]
    obtain ⟨pre, hpre⟩ := filepath.Clean_ends_entry (p ++ '/' :: n) (pathElems p) n (by simp)
      (by rw [pathElems_append_sep, pathElems_of_no_sep n hsep]) h
    rw [hpre]
    exact os.endsWithDot_append_entry pre n h

theorem collectDirs.walkNames_spec (R : GoString) (fs : FS) (hwf : fs.WF)
    (walkRec : GoString → FileInfo → FS × List GoString →
      Option ((FS × List GoString) × Option GoError))
    (p : GoString) (s : Key) (hres : resolve p = resolve R ++ s)
    (hrec : ∀ (child : GoString) (info : FileInfo) (acc : List GoString) (s1 : Key)
      (r : (FS × List GoString) × Option GoError),
      child ≠ [] → resolve child = resolve R ++ s1 → (s1 = [] → child = R) →
      (s1 ≠ [] → IsJoined child) →
      fs.lookup (resolve child) ≠ none → info.IsDir = fs.isDir (resolve child) →
      walkRec child info (fs, acc) = some r → CollectPost R fs s1 acc r) :
    ∀ (names : List GoString) (acc : List GoString)
      (r : (FS × List GoString) × Option GoError),
      (∀ n ∈ names, fs.lookup (resolve R ++ (s ++ [n])) ≠ none) →
      filepath.walkNames walkRec (FileMover.collectDirs.fn R) p names (fs, acc) = some r →
      r.1.1 = fs ∧ (∀ e, r.2 = some e → ∃ op n errno, e = GoError.pathError op n errno) ∧
      ∃ new, r.1.2 = acc ++ new ∧
        (∀ d ∈ new, IsJoined d ∧
          ∃ t, t ≠ [] ∧ resolve d = resolve R ++ t ∧ fs.isDir (resolve R ++ t) = true) ∧
        (r.2 = none → ∀ n ∈ names, ∀ t, fs.isDir (resolve R ++ (s ++ n :: t)) = true →
          ∃ d ∈ new, resolve d = resolve R ++ (s ++ n :: t)) := by
  intro names
  induction names with
  | nil =>
    intro acc r _ h
    simp only [filepath.walkNames, Option.some.injEq] at h
    subst h
    exact ⟨rfl, by simp, [], by simp, by simp, by simp⟩
  | cons n names ih =>
    intro acc r hnames h
    have hn := hnames n (List.mem_cons_self _ _)
    have hentry : isEntryName n = true :=
      FS.WF.entryName fs hwf _ hn n (by simp)
    have hchild : resolve (filepath.Join [p, n]) = resolve R ++ (s ++ [n]) := by
      rw [resolve_Join p n hentry, hres, List.append_assoc]
    have hne : filepath.Join [p, n] ≠ [] := by
      intro h0
      rw [h0, resolve_nil] at hchild
      have := congrArg List.length hchild
      simp at this
      omega
    unfold filepath.walkNames at h
    cases hinfo : os.Lstat fs (filepath.Join [p, n]) with
    | error err =>
      obtain ⟨op, nm, errno, he⟩ := os.Lstat_error fs _ err hinfo
      subst he
      simp only [hinfo, FileMover.collectDirs.fn] at h
      simp at h
      subst h
      exact ⟨rfl, fun e he => by
        simp only [Option.some.injEq] at he
        exact ⟨op, nm, errno, he.symm⟩, [], by simp, by simp, by simp⟩
    | ok info =>
      obtain ⟨_, _, _, hdir⟩ := os.Lstat_ok fs _ info hinfo
      simp only [hinfo] at h
      cases hw : walkRec (filepath.Join [p, n]) info (fs, acc) with
      | none => rw [hw] at h; simp at h
      | some r1 =>
        obtain ⟨h1, h2, new1, h3, h4, h5⟩ := hrec _ info acc (s ++ [n]) r1 hne hchild (by simp)
          (fun _ => ⟨p, n, hentry, rfl⟩) (by rw [hchild]; exact hn) hdir hw
        rw [hw] at h
        obtain ⟨⟨fs1, acc1⟩, e1⟩ := r1
        simp only at h1 h3
        subst h1 h3
        cases e1 with
        | none =>
          simp only at h
          obtain ⟨g1, g2, new2, g3, g4, g5⟩ := ih (acc ++ new1) r
            (fun x hx => hnames x (List.mem_cons_of_mem _ hx)) h
          refine ⟨g1, g2, new1 ++ new2, by rw [g3, List.append_assoc], ?_, ?_⟩
          · intro d hd
            rcases List.mem_append.1 hd with hd | hd
            · exact h4 d hd
            · exact g4 d hd
          · intro hnone x hx t ht
            rcases List.mem_cons.1 hx with hx | hx
            · subst hx
              obtain ⟨d, hd1, hd2⟩ := h5 rfl t (by simp) (by simpa using ht)
              exact ⟨d, List.mem_append_left _ hd1, by simpa using hd2⟩
            · obtain ⟨d, hd1, hd2⟩ := g5 hnone x hx t ht
              exact ⟨d, List.mem_append_right _ hd1, hd2⟩
        | some e =>
          obtain ⟨op, nm, errno, he⟩ := h2 e rfl
          subst he
          simp at h
          subst h
          exact ⟨rfl, fun e he => by
            simp only [Option.some.injEq] at he
            exact ⟨op, nm, errno, he.symm⟩, new1, rfl, h4, by simp⟩

theorem collectDirs.walk_spec (R : GoString) (fs : FS) (hwf : fs.WF) :
    ∀ (fuel : Nat) (p : GoString) (info : FileInfo) (acc : List GoString) (s : Key)
      (r : (FS × List GoString) × Option GoError),
      p ≠ [] → resolve p = resolve R ++ s → (s = [] → p = R) →
      (s ≠ [] → IsJoined p) →
      fs.lookup (resolve p) ≠ none → info.IsDir = fs.isDir (resolve p) →
      filepath.walk (FileMover.collectDirs.fn R) fuel p info (fs, acc) = some r →
      CollectPost R fs s acc r := by
  intro fuel
  induction fuel with
  | zero => intro p info acc s r _ _ _ _ _ _ h; simp [filepath.walk] at h
  | succ fuel ih =>
    intro p info acc s r hp hres hroot hdot hlook hdir h
    unfold filepath.walk at h
    by_cases hd : info.IsDir = true
    · have hisdir : fs.isDir (resolve p) = true := by rw [← hdir]; exact hd
      simp only [hd, Bool.not_true, Bool.false_eq_true, if_false] at h
      rcases filepath.readDirNames_dir fs p hisdir with ⟨names, hnames, hmem⟩ | ⟨op, n, errno, herr⟩
      · simp only [hnames, FileMover.collectDirs.fn, hd, Bool.true_and] at h
        by_cases hpR : p = R
        · simp only [hpR, ne_eq, not_true_eq_false, decide_False, Bool.false_eq_true,
            if_false] at h
          have hs : s = [] := by
            rw [hpR] at hres
            have := congrArg List.length hres
            simp at this
            exact this
          obtain ⟨g1, g2, new, g3, g4, g5⟩ := collectDirs.walkNames_spec R fs hwf
            (filepath.walk (FileMover.collectDirs.fn R) fuel) R s (hpR ▸ hres)
            (fun child info1 acc1 s1 r1 a b c d e f g => ih child info1 acc1 s1 r1 a b c d e f g)
            names acc r
            (fun n hn => by
              have := (hmem n).1 hn
              rwa [hres, List.append_assoc] at this) h
          refine ⟨g1, g2, new, g3, g4, ?_⟩
          intro hnone t ht hdt
          subst hs
          cases t with
          | nil => exact absurd rfl ht
          | cons n t =>
            have hchild : fs.lookup (resolve R ++ ([] ++ [n])) ≠ none := by
              by_cases htn : t = []
              · subst htn
                obtain ⟨m, hm⟩ := (FS.isDir_iff fs _).1 hdt
                simp only [List.nil_append] at hm ⊢
                rw [hm]; simp
              · have := FS.WF.isDir_above fs hwf (resolve R ++ [n]) t htn (by
                  obtain ⟨m, hm⟩ := (FS.isDir_iff fs _).1 hdt
                  simp only [List.nil_append, List.append_assoc, List.singleton_append] at hm ⊢
                  rw [hm]; simp)
                obtain ⟨m, hm⟩ := (FS.isDir_iff fs _).1 this
                simp only [List.nil_append]
                rw [hm]; simp
            have hn : n ∈ names := by
              rw [hmem n, hpR]
              simpa using hchild
            exact g5 hnone n hn t hdt
        · simp only [hpR, ne_eq, not_false_eq_true, decide_True, if_true] at h
          have hs : s ≠ [] := fun h0 => hpR (hroot h0)
          obtain ⟨g1, g2, new, g3, g4, g5⟩ := collectDirs.walkNames_spec R fs hwf
            (filepath.walk (FileMover.collectDirs.fn R) fuel) p s hres
            (fun child info1 acc1 s1 r1 a b c d e f g => ih child info1 acc1 s1 r1 a b c d e f g)
            names (acc ++ [p]) r
            (fun n hn => by
              have := (hmem n).1 hn
              rwa [hres, List.append_assoc] at this) h
          refine ⟨g1, g2, p :: new, by rw [g3]; simp, ?_, ?_⟩
          · intro d hd1
            rcases List.mem_cons.1 hd1 with hd1 | hd1
            · subst hd1
              exact ⟨hdot hs, s, hs, hres, by rw [← hres]; exact hisdir⟩
            · exact g4 d hd1
          · intro hnone t _ hdt
            cases t with
            | nil => exact ⟨p, List.mem_cons_self _ _, by simpa using hres⟩
            | cons n t =>
              have hchild : fs.lookup (resolve R ++ (s ++ [n])) ≠ none := by
                by_cases htn : t = []
                · subst htn
                  obtain ⟨m, hm⟩ := (FS.isDir_iff fs _).1 hdt
                  rw [hm]; simp
                · have := FS.WF.isDir_above fs hwf (resolve R ++ (s ++ [n])) t htn (by
                    obtain ⟨m, hm⟩ := (FS.isDir_iff fs _).1 hdt
                    simp only [List.append_assoc, List.singleton_append] at hm ⊢
                    rw [hm]; simp)
                  obtain ⟨m, hm⟩ := (FS.isDir_iff fs _).1 this
                  rw [hm]; simp
              have hn : n ∈ names := by
                rw [hmem n, hres, List.append_assoc]
                exact hchild
              obtain ⟨d, hd1, hd2⟩ := g5 hnone n hn t hdt
              exact ⟨d, List.mem_cons_of_mem _ hd1, hd2⟩
      · simp only [herr, FileMover.collectDirs.fn, Option.some.injEq] at h
        subst h
        exact ⟨rfl, fun e he => by
          simp only [Option.some.injEq] at he
          exact ⟨op, n, errno, he.symm⟩, [], by simp, by simp, by simp⟩
    · simp only [hd, Bool.not_false, if_true, FileMover.collectDirs.fn, Bool.false_and,
        Bool.false_eq_true, if_false, Option.some.injEq] at h
      subst h
      refine ⟨rfl, by simp, [], by simp, by simp, ?_⟩
      intro _ t ht hdt
      exfalso
      have hfile : fs.isDir (resolve R ++ s) = false := by
        rw [← hres, ← hdir]
        simpa using hd
      cases t with
      | nil =>
        rw [List.append_nil, hfile] at hdt
        exact Bool.false_ne_true hdt
      | cons n t =>
        have := FS.WF.isDir_above fs hwf (resolve R ++ s) (n :: t) (by simp) (by
          obtain ⟨m, hm⟩ := (FS.isDir_iff fs _).1 hdt
          rw [List.append_assoc, hm]; simp)
        rw [hfile] at this
        exact Bool.false_ne_true this

/-- The walk of `deleteSubDirs` on a well-formed state: if it returns without error, the
filesystem is unchanged, every path collected is a directory strictly below the root,
and every directory strictly below the root has a path collected. -/
theorem collectDirs_spec (fm : FileMover) (fuel : Nat) (fs fs1 : FS) (dirs : List GoString)
    (hwf : fs.WF) (h : fm.collectDirs fuel fs = some ((fs1, dirs), none)) :
    fs1 = fs ∧ fm.RootDir ≠ [] ∧ fs.namei fm.RootDir = .ok (resolve fm.RootDir) ∧
    fs.lookup (resolve fm.RootDir) ≠ none ∧
    (∀ d ∈ dirs, IsJoined d ∧ ∃ t, t ≠ [] ∧
      resolve d = resolve fm.RootDir ++ t ∧ fs.isDir (resolve fm.RootDir ++ t) = true) ∧
    (∀ t, t ≠ [] → fs.isDir (resolve fm.RootDir ++ t) = true →
      ∃ d ∈ dirs, resolve d = resolve fm.RootDir ++ t) := by
  unfold FileMover.collectDirs filepath.Walk at h
  simp only at h
  cases hl : os.Lstat fs fm.RootDir with
  | error e =>
    obtain ⟨op, n, errno, he⟩ := os.Lstat_error fs _ e hl
    subst he
    rw [hl] at h
    simp [FileMover.collectDirs.fn] at h
  | ok info =>
    simp only [hl] at h
    obtain ⟨hp, hnamei, hlook, hdir⟩ := os.Lstat_ok fs _ info hl
    cases hw : filepath.walk (FileMover.collectDirs.fn fm.RootDir) fuel fm.RootDir info (fs, [])
      with
    | none => simp [hw] at h
    | some r =>
      simp only [hw] at h
      obtain ⟨g1, g2, new, g3, g4, g5⟩ := collectDirs.walk_spec fm.RootDir fs hwf fuel fm.RootDir
        info [] [] r hp (by simp) (fun _ => rfl) (fun h0 => absurd rfl h0) hlook hdir hw
      obtain ⟨⟨fs2, acc2⟩, e2⟩ := r
      simp only at g1 g2 g3 g5 h
      cases e2 with
      | some e =>
        obtain ⟨op, n, errno, he⟩ := g2 e rfl
        subst he
        simp at h
      | none =>
        simp only [List.nil_append] at g3
        simp at h
        obtain ⟨h1, h2⟩ := h
        subst h1 h2 g1 g3
        exact ⟨rfl, hp, hnamei, hlook, g4, fun t ht hdt => g5 rfl t (by simpa using ht) (by simpa using hdt)⟩

/-! ## `os.RemoveAll` and the loop of `deleteSubDirs` -/

/-- In a well-formed state nothing exists at or below a key one of whose ancestors does
not exist. -/
theorem FS.WF.none_below (fs : FS) (hwf : fs.WF) (k : Key) (i : Nat)
    (h : fs.lookup (k.take i) = none) (y : Key) (hy : Key.above k y = true) :
    fs.lookup y = none := by
  obtain ⟨t, ht⟩ := (Key.above_iff _ _).1 hy
  by_contra hcon
  have hsplit : y = k.take i ++ (k.drop i ++ t) := by
    rw [ht, ← List.append_assoc, List.take_append_drop]
  by_cases hrest : k.drop i ++ t = []
  · rw [hrest, List.append_nil] at hsplit
    rw [hsplit] at hcon
    exact hcon h
  · have := FS.WF.isDir_above fs hwf (k.take i) (k.drop i ++ t) hrest (by rw [← hsplit]; exact hcon)
    obtain ⟨m, hm⟩ := (FS.isDir_iff fs _).1 this
    rw [hm] at h
    simp at h

/-- A successful `os.RemoveAll` on a well-formed state, at a path made by `filepath.Join`:
afterwards nothing exists at or below the path, everything else is as before, and the
state is well formed. -/
theorem os.RemoveAll_ok (fs fs1 : FS) (d : GoString) (hwf : fs.WF) (hd : IsJoined d)
    (h : os.RemoveAll fs d = (fs1, none)) :
    fs1.WF ∧ ∀ y, fs1.lookup y = if Key.above (resolve d) y then none else fs.lookup y := by
  have hnone : fs.lookup (resolve d) = none → fs1 = fs →
      fs1.WF ∧ ∀ y, fs1.lookup y = if Key.above (resolve d) y then none else fs.lookup y := by
    intro hnone heq
    subst heq
    refine ⟨hwf, fun y => ?_⟩
    by_cases hy : Key.above (resolve d) y = true
    · simp only [hy, if_true]
      have := FS.WF.none_below fs1 hwf (resolve d) (resolve d).length
        (by rw [List.take_length]; exact hnone) y hy
      exact this
    · simp [hy]
  unfold os.RemoveAll at h
  split at h
  · rename_i hnil
    obtain ⟨q, n, hn, hq⟩ := hd
    have := resolve_Join q n hn
    rw [← hq, hnil, resolve_nil] at this
    simp at this
  · split at h
    · simp at h
    · cases hn : fs.namei d with
      | error errno =>
        rw [hn] at h
        simp only at h
        split at h
        · rename_i herrno
          simp only [Prod.mk.injEq, and_true] at h
          rw [FS.namei_joined fs d hd, herrno] at hn
          obtain ⟨i, hi, hl⟩ := FS.descend_enoent fs _ _ hn
          rw [List.nil_append] at hl
          refine ⟨h ▸ hwf, fun y => ?_⟩
          rw [← h]
          by_cases hy : Key.above (resolve d) y = true
          · simp only [hy, if_true]
            exact FS.WF.none_below fs hwf (resolve d) i hl y hy
          · simp [hy]
        · simp at h
      | ok k =>
        obtain ⟨hk, _⟩ := FS.namei_ok fs d k hn
        subst hk
        rw [hn] at h
        simp only at h
        split at h
        · rename_i hl
          simp only [Prod.mk.injEq, and_true] at h
          exact hnone hl h.symm
        · split at h
          · simp only [Prod.mk.injEq, and_true] at h
            subst h
            refine ⟨FS.WF.filter_above fs hwf _, fun y => ?_⟩
            rw [FS.lookup_filter_key fs (fun x => !Key.above (resolve d) x)]
            by_cases hy : Key.above (resolve d) y = true <;> simp [hy]
          · simp at h

theorem FileMover.removeDirs_spec :
    ∀ (dirs : List GoString) (fs fs1 : FS), fs.WF → (∀ d ∈ dirs, IsJoined d) →
      FileMover.removeDirs dirs fs = (fs1, none) →
      fs1.WF ∧ ∀ y, fs1.lookup y =
        if dirs.any (fun d => Key.above (resolve d) y) then none else fs.lookup y := by
  intro dirs
  induction dirs with
  | nil =>
    intro fs fs1 hwf _ h
    simp only [FileMover.removeDirs, Prod.mk.injEq, and_true] at h
    subst h
    exact ⟨hwf, fun y => by simp⟩
  | cons d dirs ih =>
    intro fs fs1 hwf hne h
    unfold FileMover.removeDirs at h
    cases hr : os.RemoveAll fs d with
    | mk fs2 err =>
      rw [hr] at h
      cases err with
      | some e => simp at h
      | none =>
        simp only at h
        obtain ⟨hwf2, hl2⟩ := os.RemoveAll_ok fs fs2 d hwf (hne d (List.mem_cons_self _ _)) hr
        obtain ⟨hwf1, hl1⟩ := ih fs2 fs1 hwf2 (fun x hx => hne x (List.mem_cons_of_mem _ hx)) h
        refine ⟨hwf1, fun y => ?_⟩
        rw [hl1 y, hl2 y, List.any_cons]
        by_cases h1 : Key.above (resolve d) y = true
        · simp [h1]
        · by_cases h2 : (dirs.any fun d => Key.above (resolve d) y) = true
          · simp [h1, h2]
          · simp [h1, h2]

/-- What `deleteSubDirs` does when it returns nil, on a well-formed state: the walk
collected `dirs`, each a directory strictly below the root and one for every such
directory, and the state returned is the state at the start without the nodes that lie
at or below one of them. -/
theorem FileMover.deleteSubDirs_spec (fm : FileMover) (fuel : Nat) (fs fs1 : FS) (hwf : fs.WF)
    (h : fm.deleteSubDirs fuel fs = some (fs1, none)) :
    ∃ dirs, fm.collectDirs fuel fs = some ((fs, dirs), none) ∧
      fs.lookup (resolve fm.RootDir) ≠ none ∧
      (∀ d ∈ dirs, IsJoined d ∧ ∃ t, t ≠ [] ∧
        resolve d = resolve fm.RootDir ++ t ∧ fs.isDir (resolve fm.RootDir ++ t) = true) ∧
      (∀ t, t ≠ [] → fs.isDir (resolve fm.RootDir ++ t) = true →
        ∃ d ∈ dirs, resolve d = resolve fm.RootDir ++ t) ∧
      FileMover.removeDirs (SortDirsByDepth dirs) fs = (fs1, none) ∧
      ∀ y, fs1.lookup y =
        if dirs.any (fun d => Key.above (resolve d) y) then none else fs.lookup y := by
  unfold FileMover.deleteSubDirs at h
  cases hc : fm.collectDirs fuel fs with
  | none => rw [hc] at h; simp at h
  | some r =>
    obtain ⟨⟨fs2, dirs⟩, err⟩ := r
    rw [hc] at h
    cases err with
    | some e => simp at h
    | none =>
      simp only [Option.some.injEq] at h
      obtain ⟨h1, _, _, h3, h4, h5⟩ := collectDirs_spec fm fuel fs fs2 dirs hwf hc
      subst h1
      have hperm : (SortDirsByDepth dirs).Perm dirs :=
        (sort.Slice_sorted (fun a => strings.Count a os.PathSeparator)
          SortDirsByDepth.less (fun a b => rfl) dirs).2
      have hne : ∀ d ∈ SortDirsByDepth dirs, IsJoined d :=
        fun d hd => (h4 d (hperm.subset hd)).1
      obtain ⟨_, hl⟩ := FileMover.removeDirs_spec _ fs2 fs1 hwf hne h
      refine ⟨dirs, rfl, h3, h4, h5, h, fun y => ?_⟩
      rw [hl y]
      have : (SortDirsByDepth dirs).any (fun d => Key.above (resolve d) y) =
          dirs.any (fun d => Key.above (resolve d) y) := by
        rw [Bool.eq_iff_iff]
        simp only [List.any_eq_true]
        constructor
        · rintro ⟨d, hd, hy⟩; exact ⟨d, hperm.subset hd, hy⟩
        · rintro ⟨d, hd, hy⟩; exact ⟨d, hperm.symm.subset hd, hy⟩
      rw [this]

/-! ## The walk of `deleteSubDirs` returns -/

theorem IsJoined.ne_nil (d : GoString) (h : IsJoined d) : d ≠ [] := by
  obtain ⟨q, n, hn, hq⟩ := h
  intro h0
  have := resolve_Join q n hn
  rw [← hq, h0, resolve_nil] at this
  simp at this

theorem IsJoined.endsWithDot (d : GoString) (h : IsJoined d) : os.endsWithDot d = false := by
  obtain ⟨q, n, hn, hq⟩ := h
  rw [hq]
  exact os.endsWithDot_Join q n hn

/-- In a well-formed state whose directories at and below `rR` may be searched, every
directory from `rR` down to a node that exists can be searched. -/
theorem FS.searchable_above (fs : FS) (hwf : fs.WF) (rR : Key)
    (hx : ∀ t m, fs.lookup (rR ++ t) = some (.dir m) → m.x = true)
    (t : Key) (hl : fs.lookup (rR ++ t) ≠ none) :
    ∀ i, i < t.length → fs.dirSearchable (rR ++ t.take i) = true := by
  intro i hi
  have hdrop : t.drop i ≠ [] := by
    intro h0
    have := congrArg List.length h0
    simp only [List.length_drop, List.length_nil] at this
    omega
  have hdir := FS.WF.isDir_above fs hwf (rR ++ t.take i) (t.drop i) hdrop (by
    rw [List.append_assoc, List.take_append_drop]; exact hl)
  obtain ⟨m, hm⟩ := (FS.isDir_iff fs _).1 hdir
  exact (FS.dirSearchable_iff fs _).2 ⟨m, hm, hx _ m hm⟩

theorem Key.take_append_le (rR t : Key) (i : Nat) (hi : i < (rR ++ t).length) :
    (i < rR.length ∧ (rR ++ t).take i = rR.take i) ∨
      ∃ j, j < t.length ∧ (rR ++ t).take i = rR ++ t.take j := by
  by_cases h : i < rR.length
  · left
    exact ⟨h, List.take_append_of_le_length (by omega)⟩
  · right
    simp only [List.length_append] at hi
    refine ⟨i - rR.length, by omega, ?_⟩
    rw [List.take_append_eq_append_take, List.take_of_length_le (by omega)]

/-- The lookup of a path made by `filepath.Join` that resolves to `rR ++ t` succeeds when
the directories above `rR` and those from `rR` down to the parent of the node can be
searched. -/
theorem FS.namei_below (fs : FS) (rR : Key)
    (hanc : ∀ i, i < rR.length → fs.dirSearchable (rR.take i) = true)
    (d : GoString) (hj : IsJoined d) (t : Key) (hres : resolve d = rR ++ t)
    (hx : ∀ i, i < t.length → fs.dirSearchable (rR ++ t.take i) = true) :
    fs.namei d = .ok (resolve d) := by
  rw [FS.namei_joined fs d hj]
  have := FS.descend_of_searchable fs (resolve d) [] (by
    intro i hi
    rw [List.nil_append]
    rw [hres] at hi ⊢
    rcases Key.take_append_le rR t i hi with ⟨h1, h2⟩ | ⟨j, h1, h2⟩
    · rw [h2]; exact hanc i h1
    · rw [h2]; exact hx j h1)
  rw [this, List.nil_append]

/-- The lookup of such a path ends at its key or fails with `ENOENT` when each of the
directories from `rR` down either does not exist or can be searched. -/
theorem FS.namei_below_or_enoent (fs : FS) (rR : Key)
    (hanc : ∀ i, i < rR.length → fs.dirSearchable (rR.take i) = true)
    (d : GoString) (hj : IsJoined d) (t : Key) (hres : resolve d = rR ++ t)
    (hx : ∀ i, i < t.length → fs.lookup (rR ++ t.take i) = none ∨
      fs.dirSearchable (rR ++ t.take i) = true) :
    fs.namei d = .ok (resolve d) ∨ fs.namei d = .error .ENOENT := by
  rw [FS.namei_joined fs d hj]
  have := FS.descend_ok_or_enoent fs (resolve d) [] (by
    intro i hi
    rw [List.nil_append]
    rw [hres] at hi ⊢
    rcases Key.take_append_le rR t i hi with ⟨h1, h2⟩ | ⟨j, h1, h2⟩
    · rw [h2]; exact Or.inr (hanc i h1)
    · rw [h2]; exact hx j h1)
  rw [List.nil_append] at this
  exact this

theorem filepath.readDirNames_readable (fs : FS) (p : GoString) (hp : p ≠ [])
    (hn : fs.namei p = .ok (resolve p)) (m : Mode)
    (h : fs.lookup (resolve p) = some (.dir m)) (hr : m.r = true) :
    ∃ names, filepath.readDirNames fs p = .ok names ∧
      ∀ n, n ∈ names ↔ fs.lookup (resolve p ++ [n]) ≠ none := by
  unfold filepath.readDirNames
  rw [FS.find_of_namei fs _ _ _ hp hn]
  simp only [h]
  refine ⟨sort.Strings (fs.children (resolve p)), by simp [hr], ?_⟩
  intro n
  rw [sort.mem_Strings, FS.mem_children]

theorem collectDirs.walkNames_total (R : GoString) (fs : FS) (hwf : fs.WF)
    (hanc : ∀ i, i < (resolve R).length → fs.dirSearchable ((resolve R).take i) = true)
    (hx : ∀ t m, fs.lookup (resolve R ++ t) = some (.dir m) → m.x = true)
    (walkRec : GoString → FileInfo → FS × List GoString →
      Option ((FS × List GoString) × Option GoError))
    (p : GoString) (s : Key) (hres : resolve p = resolve R ++ s)
    (hrec : ∀ (child : GoString) (info : FileInfo) (acc : List GoString) (n : GoString),
      child ≠ [] → resolve child = resolve R ++ (s ++ [n]) →
      fs.namei child = .ok (resolve child) →
      fs.lookup (resolve child) ≠ none → info.IsDir = fs.isDir (resolve child) →
      ∃ acc1, walkRec child info (fs, acc) = some ((fs, acc1), none)) :
    ∀ (names : List GoString) (acc : List GoString),
      (∀ n ∈ names, fs.lookup (resolve R ++ (s ++ [n])) ≠ none) →
      ∃ acc1, filepath.walkNames walkRec (FileMover.collectDirs.fn R) p names (fs, acc) =
        some ((fs, acc1), none) := by
  intro names
  induction names with
  | nil => intro acc _; exact ⟨acc, rfl⟩
  | cons n names ih =>
    intro acc hnames
    have hn := hnames n (List.mem_cons_self _ _)
    have hentry : isEntryName n = true :=
      FS.WF.entryName fs hwf _ hn n (by simp)
    have hchild : resolve (filepath.Join [p, n]) = resolve R ++ (s ++ [n]) := by
      rw [resolve_Join p n hentry, hres, List.append_assoc]
    have hj : IsJoined (filepath.Join [p, n]) := ⟨p, n, hentry, rfl⟩
    have hne := IsJoined.ne_nil _ hj
    have hnamei := FS.namei_below fs (resolve R) hanc _ hj (s ++ [n]) hchild
      (FS.searchable_above fs hwf (resolve R) hx (s ++ [n]) hn)
    obtain ⟨info, hinfo, hdir⟩ := os.Lstat_of_namei fs _ hne hnamei (by rw [hchild]; exact hn)
    obtain ⟨acc1, h1⟩ := hrec _ info acc n hne hchild hnamei (by rw [hchild]; exact hn) hdir
    obtain ⟨acc2, h2⟩ := ih acc1 (fun x hx => hnames x (List.mem_cons_of_mem _ hx))
    refine ⟨acc2, ?_⟩
    unfold filepath.walkNames
    simp only [hinfo, h1]
    exact h2

theorem collectDirs.walk_total (R : GoString) (fs : FS) (hwf : fs.WF)
    (hanc : ∀ i, i < (resolve R).length → fs.dirSearchable ((resolve R).take i) = true)
    (hread : ∀ t m, fs.lookup (resolve R ++ t) = some (.dir m) → m.r = true ∧ m.x = true) :
    ∀ (fuel : Nat) (p : GoString) (info : FileInfo) (acc : List GoString) (s : Key),
      p ≠ [] → resolve p = resolve R ++ s → fs.namei p = .ok (resolve p) →
      fs.lookup (resolve p) ≠ none → info.IsDir = fs.isDir (resolve p) →
      (∀ u, fs.lookup (resolve R ++ (s ++ u)) ≠ none → u.length < fuel) →
      ∃ acc1, filepath.walk (FileMover.collectDirs.fn R) fuel p info (fs, acc) =
        some ((fs, acc1), none) := by
  intro fuel
  induction fuel with
  | zero =>
    intro p info acc s _ hres _ hlook _ hfuel
    have := hfuel [] (by rw [List.append_nil, ← hres]; exact hlook)
    simp at this
  | succ fuel ih =>
    intro p info acc s hp hres hnamei hlook hdir hfuel
    unfold filepath.walk
    by_cases hd : info.IsDir = true
    · have hisdir : fs.isDir (resolve p) = true := by rw [← hdir]; exact hd
      obtain ⟨m, hm⟩ := (FS.isDir_iff fs _).1 hisdir
      obtain ⟨names, hnames, hmem⟩ := filepath.readDirNames_readable fs p hp hnamei m hm
        (hread s m (by rw [← hres]; exact hm)).1
      simp only [hd, Bool.not_true, Bool.false_eq_true, if_false, hnames,
        FileMover.collectDirs.fn, Bool.true_and]
      have hkids : ∀ acc0, ∃ acc1, filepath.walkNames
          (filepath.walk (FileMover.collectDirs.fn R) fuel) (FileMover.collectDirs.fn R) p names
          (fs, acc0) = some ((fs, acc1), none) := by
        intro acc0
        apply collectDirs.walkNames_total R fs hwf hanc (fun t m h => (hread t m h).2) _ p s hres
          _ names acc0
        · intro n hn
          have := (hmem n).1 hn
          rwa [hres, List.append_assoc] at this
        · intro child info1 acc1 n h1 h2 h3 h4 h5
          apply ih child info1 acc1 (s ++ [n]) h1 h2 h3 h4 h5
          intro u hu
          have := hfuel (n :: u) (by simpa using hu)
          simpa using this
      by_cases hpR : p = R
      · have h0 : decide (p ≠ R) = false := by simp [hpR]
        simp only [h0, Bool.false_eq_true, if_false]
        exact hkids acc
      · have h0 : decide (p ≠ R) = true := by simp [hpR]
        simp only [h0, if_true]
        exact hkids (acc ++ [p])
    · refine ⟨acc, ?_⟩
      simp [hd, FileMover.collectDirs.fn]

/-- The walk of `deleteSubDirs` returns without error when `os.Lstat` finds the root, the
directories at and below it may be listed and searched, and the fuel exceeds the depth
of the tree below the root. -/
theorem collectDirs_total (fm : FileMover) (fuel : Nat) (fs : FS) (hwf : fs.WF)
    (info : FileInfo) (hroot : os.Lstat fs fm.RootDir = .ok info)
    (hread : ∀ t m, fs.lookup (resolve fm.RootDir ++ t) = some (.dir m) →
      m.r = true ∧ m.x = true)
    (hfuel : ∀ u, fs.lookup (resolve fm.RootDir ++ u) ≠ none → u.length < fuel) :
    ∃ dirs, fm.collectDirs fuel fs = some ((fs, dirs), none) := by
  obtain ⟨hR, hnamei, hlook, hdir⟩ := os.Lstat_ok fs fm.RootDir info hroot
  obtain ⟨acc1, h1⟩ := collectDirs.walk_total fm.RootDir fs hwf
    (FS.namei_ok fs _ _ hnamei).2 hread fuel fm.RootDir info [] []
    hR (by simp) hnamei hlook hdir (by simpa using hfuel)
  refine ⟨acc1, ?_⟩
  unfold FileMover.collectDirs filepath.Walk
  simp [hroot, h1]

/-! ## The loop of `deleteSubDirs` returns nil -/

theorem os.RemoveAll_succeeds (fs : FS) (d : GoString) (hj : IsJoined d)
    (hnamei : fs.namei d = .ok (resolve d) ∨ fs.namei d = .error .ENOENT)
    (hrem : ∀ y, Key.above (resolve d) y = true → fs.lookup y ≠ none →
      fs.removable (resolve d) y = true) :
    ∃ fs1, os.RemoveAll fs d = (fs1, none) := by
  unfold os.RemoveAll
  simp only [IsJoined.ne_nil d hj, if_false, IsJoined.endsWithDot d hj, Bool.false_eq_true]
  rcases hnamei with hn | hn
  · rw [hn]
    simp only
    by_cases hl : fs.lookup (resolve d) = none
    · exact ⟨fs, by simp [hl]⟩
    · have hall : ((fs.nodes.map Prod.fst).filter (Key.above (resolve d))).all
          (fs.removable (resolve d)) = true := by
        rw [List.all_eq_true]
        intro y hy
        obtain ⟨hy1, hy2⟩ := List.mem_filter.1 hy
        exact hrem y hy2 (by rw [Ne, FS.lookup_eq_none_iff, not_not]; exact hy1)
      exact ⟨⟨fs.nodes.filter (fun e => !Key.above (resolve d) e.1)⟩,
        by simp only [hl, if_false, hall, if_true]⟩
  · rw [hn]
    exact ⟨fs, by simp⟩

theorem FS.WF.parent_isDir (fs : FS) (hwf : fs.WF) (e : Key) (he : e ≠ [])
    (h : fs.lookup e ≠ none) : fs.isDir e.dropLast = true := by
  cases hn : fs.lookup e with
  | none => exact absurd hn h
  | some n => exact hwf.2.2 _ (FS.lookup_some_mem fs e n hn) he

/-- In a state that holds part of a tree whose directories below the root may all be
read, written and searched, `os.RemoveAll` can remove every node at or below a
directory under the root. -/
theorem FS.removable_of_permissive (fs0 fs : FS) (rR t0 : Key) (hwf : fs.WF)
    (hsub : ∀ y n, fs.lookup y = some n → fs0.lookup y = some n)
    (hperm : ∀ t m, fs0.lookup (rR ++ t) = some (.dir m) →
      m.r = true ∧ m.w = true ∧ m.x = true)
    (ht0 : t0 ≠ []) (e : Key) (habove : Key.above (rR ++ t0) e = true)
    (hl : fs.lookup e ≠ none) : fs.removable (rR ++ t0) e = true := by
  obtain ⟨u, hu⟩ := (Key.above_iff _ _).1 habove
  have hne : e ≠ [] := by
    intro h0
    rw [h0] at hu
    have := congrArg List.length hu
    simp at this
    exact ht0 (List.length_eq_zero.1 (by omega))
  have hmode : ∀ v w, e = rR ++ v ++ w → w ≠ [] →
      ∃ m, fs.lookup (rR ++ v) = some (.dir m) ∧ m.r = true ∧ m.w = true ∧ m.x = true := by
    intro v w hvw hw
    have hdir := FS.WF.isDir_above fs hwf (rR ++ v) w hw (by rw [← hvw]; exact hl)
    obtain ⟨m, hm⟩ := (FS.isDir_iff fs _).1 hdir
    exact ⟨m, hm, hperm v m (hsub _ _ hm)⟩
  unfold FS.removable
  rw [Bool.and_eq_true, Bool.and_eq_true, decide_eq_true_eq, List.all_eq_true]
  refine ⟨⟨hne, ?_⟩, ?_⟩
  · have h1 : t0 ++ u ≠ [] := by simp [ht0]
    obtain ⟨v, c, hvc⟩ := (List.eq_nil_or_concat (t0 ++ u)).resolve_left h1
    have hsplit : e = rR ++ v ++ [c] := by
      rw [hu, List.append_assoc, hvc, List.append_assoc, List.concat_eq_append]
    obtain ⟨m, hm1, _, hm3, hm4⟩ := hmode _ _ hsplit (by simp)
    have hdl : e.dropLast = rR ++ v := by
      rw [hsplit, List.dropLast_concat]
    unfold FS.dirWritable
    rw [hdl, hm1]
    simp [hm3, hm4]
  · intro i hi
    rw [List.mem_range] at hi
    have hi1 : i < u.length := by
      rw [hu] at hi
      simp only [List.length_append] at hi
      omega
    have htake : e.take ((rR ++ t0).length + i) = rR ++ (t0 ++ u.take i) := by
      rw [hu, List.take_append, List.append_assoc]
    have hsplit : e = rR ++ (t0 ++ u.take i) ++ u.drop i := by
      conv_lhs => rw [hu]
      simp [List.append_assoc]
    have hdrop : u.drop i ≠ [] := by
      intro h0
      have := congrArg List.length h0
      simp only [List.length_drop, List.length_nil] at this
      omega
    obtain ⟨m, hm1, hm2, _, hm4⟩ := hmode _ _ hsplit hdrop
    unfold FS.dirReadable
    rw [htake, hm1]
    simp [hm2, hm4]

theorem FileMover.removeDirs_total (fs0 : FS) (hwf0 : fs0.WF) (rR : Key)
    (hperm : ∀ t m, fs0.lookup (rR ++ t) = some (.dir m) →
      m.r = true ∧ m.w = true ∧ m.x = true) :
    ∀ (dirs : List GoString) (fs : FS), fs.WF →
      (∀ y n, fs.lookup y = some n → fs0.lookup y = some n) →
      (∀ i, i < rR.length → fs.dirSearchable (rR.take i) = true) →
      (∀ d ∈ dirs, IsJoined d ∧
        ∃ t, t ≠ [] ∧ resolve d = rR ++ t ∧ fs0.isDir (rR ++ t) = true) →
      ∃ fs1, FileMover.removeDirs dirs fs = (fs1, none) := by
  intro dirs
  induction dirs with
  | nil => intro fs _ _ _ _; exact ⟨fs, rfl⟩
  | cons d dirs ih =>
    intro fs hwf hsub hanc hdirs
    obtain ⟨hj, t, ht, hres, hdir0⟩ := hdirs d (List.mem_cons_self _ _)
    have hnamei := FS.namei_below_or_enoent fs rR hanc d hj t hres (by
      intro i hi
      cases hl : fs.lookup (rR ++ t.take i) with
      | none => exact Or.inl rfl
      | some n =>
        right
        have h0 := hsub _ _ hl
        obtain ⟨m0, hm0⟩ := (FS.isDir_iff fs0 _).1 hdir0
        have hs := FS.searchable_above fs0 hwf0 rR (fun t m h => (hperm t m h).2.2) t
          (by rw [hm0]; simp) i hi
        obtain ⟨m, hm, hmx⟩ := (FS.dirSearchable_iff fs0 _).1 hs
        rw [hm] at h0
        simp only [Option.some.injEq] at h0
        rw [FS.dirSearchable_iff]
        exact ⟨m, by rw [hl, h0], hmx⟩)
    obtain ⟨fs2, h2⟩ := os.RemoveAll_succeeds fs d hj hnamei (fun y hy hl => by
      rw [hres] at hy ⊢
      exact FS.removable_of_permissive fs0 fs rR t hwf hsub hperm ht y hy hl)
    obtain ⟨hwf2, hl2⟩ := os.RemoveAll_ok fs fs2 d hwf hj h2
    obtain ⟨fs1, h1⟩ := ih fs2 hwf2 (fun y n hy => by
      rw [hl2 y] at hy
      by_cases hc : Key.above (resolve d) y = true
      · simp [hc] at hy
      · simp only [hc, Bool.false_eq_true, if_false] at hy
        exact hsub y n hy) (fun i hi => by
      have hna : Key.above (resolve d) (rR.take i) = false := by
        rw [Bool.eq_false_iff]
        intro habove
        obtain ⟨u, hu⟩ := (Key.above_iff _ _).1 habove
        rw [hres] at hu
        have := congrArg List.length hu
        simp only [List.length_append, List.length_take] at this
        omega
      have := hanc i hi
      unfold FS.dirSearchable at this ⊢
      rw [hl2, hna]
      exact this) (fun x hx => hdirs x (List.mem_cons_of_mem _ hx))
    exact ⟨fs1, by unfold FileMover.removeDirs; simp only [h2]; exact h1⟩

/-- On a well-formed state in which `os.Lstat` finds the root, the directories at and
below it may be read, written and searched, and the fuel exceeds the depth of the tree
below the root, `deleteSubDirs` returns nil. -/
theorem FileMover.deleteSubDirs_total (fm : FileMover) (fuel : Nat) (fs : FS) (hwf : fs.WF)
    (info : FileInfo) (hroot : os.Lstat fs fm.RootDir = .ok info)
    (hperm : ∀ t m, fs.lookup (resolve fm.RootDir ++ t) = some (.dir m) →
      m.r = true ∧ m.w = true ∧ m.x = true)
    (hfuel : ∀ u, fs.lookup (resolve fm.RootDir ++ u) ≠ none → u.length < fuel) :
    ∃ fs1, fm.deleteSubDirs fuel fs = some (fs1, none) := by
  obtain ⟨dirs, hc⟩ := collectDirs_total fm fuel fs hwf info hroot
    (fun t m h => ⟨(hperm t m h).1, (hperm t m h).2.2⟩) hfuel
  obtain ⟨_, _, hnamei, _, h4, _⟩ := collectDirs_spec fm fuel fs fs dirs hwf hc
  have hperm1 : (SortDirsByDepth dirs).Perm dirs :=
    (sort.Slice_sorted (fun a => strings.Count a os.PathSeparator)
      SortDirsByDepth.less (fun a b => rfl) dirs).2
  obtain ⟨fs1, h1⟩ := FileMover.removeDirs_total fs hwf (resolve fm.RootDir) hperm
    (SortDirsByDepth dirs) fs hwf (fun y n h => h) (FS.namei_ok fs _ _ hnamei).2
    (fun d hd => h4 d (hperm1.subset hd))
  exact ⟨fs1, by unfold FileMover.deleteSubDirs; simp only [hc, h1]⟩

/-! ## `deleteSubDirs` -/

/-- C5. When `deleteSubDirs` returns nil on a well-formed state: the walk collected a list
`dirs` and the loop removed the paths of `SortDirsByDepth dirs`; no path in `dirs`
resolves to the root, and every directory strictly below the root has its path in
`dirs`; the root exists afterwards as it did before; every regular file directly in
the root is there afterwards with its content; and no directory is left below the
root. -/
theorem deleteSubDirs_keeps_root (fm : FileMover) (fuel : Nat) (fs fs1 : FS) (hwf : fs.WF)
    (h : fm.deleteSubDirs fuel fs = some (fs1, none)) :
    ∃ dirs, fm.collectDirs fuel fs = some ((fs, dirs), none) ∧
      FileMover.removeDirs (SortDirsByDepth dirs) fs = (fs1, none) ∧
      (∀ d ∈ dirs, resolve d ≠ resolve fm.RootDir) ∧
      (∀ t, t ≠ [] → fs.isDir (resolve fm.RootDir ++ t) = true →
        ∃ d ∈ dirs, resolve d = resolve fm.RootDir ++ t) ∧
      fs.lookup (resolve fm.RootDir) ≠ none ∧
      fs1.lookup (resolve fm.RootDir) = fs.lookup (resolve fm.RootDir) ∧
      (∀ name content mode,
        fs.lookup (resolve fm.RootDir ++ [name]) = some (.file content mode) →
        fs1.lookup (resolve fm.RootDir ++ [name]) = some (.file content mode)) ∧
      (∀ t, t ≠ [] → fs1.isDir (resolve fm.RootDir ++ t) = false) := by
  obtain ⟨dirs, h1, h2, h3, h4, h5, h6⟩ := FileMover.deleteSubDirs_spec fm fuel fs fs1 hwf h
  refine ⟨dirs, h1, h5, ?_, h4, h2, ?_, ?_, ?_⟩
  · intro d hd heq
    obtain ⟨_, t, ht, hres, _⟩ := h3 d hd
    rw [heq] at hres
    have := congrArg List.length hres
    simp at this
    exact ht this
  · rw [h6]
    have : dirs.any (fun d => Key.above (resolve d) (resolve fm.RootDir)) = false := by
      rw [Bool.eq_false_iff]
      intro hany
      obtain ⟨d, hd, habove⟩ := List.any_eq_true.1 hany
      obtain ⟨_, t, ht, hres, _⟩ := h3 d hd
      obtain ⟨u, hu⟩ := (Key.above_iff _ _).1 habove
      rw [hres] at hu
      have := congrArg List.length hu
      simp only [List.length_append] at this
      exact ht (List.length_eq_zero.1 (by omega))
    simp [this]
  · intro name content mode hfile
    rw [h6]
    have : dirs.any (fun d => Key.above (resolve d) (resolve fm.RootDir ++ [name])) = false := by
      rw [Bool.eq_false_iff]
      intro hany
      obtain ⟨d, hd, habove⟩ := List.any_eq_true.1 hany
      obtain ⟨_, t, ht, hres, hdir⟩ := h3 d hd
      obtain ⟨u, hu⟩ := (Key.above_iff _ _).1 habove
      rw [hres, List.append_assoc] at hu
      have htu := List.append_cancel_left hu
      have hlen := congrArg List.length htu
      simp only [List.length_singleton, List.length_append] at hlen
      have htpos : 0 < t.length := List.length_pos.2 ht
      have hu0 : u = [] := List.length_eq_zero.1 (by omega)
      rw [hu0, List.append_nil] at htu
      rw [← htu] at hdir
      obtain ⟨m, hm⟩ := (FS.isDir_iff fs _).1 hdir
      rw [hm] at hfile
      simp at hfile
    simp [this, hfile]
  · intro t ht
    rw [Bool.eq_false_iff]
    intro hdir1
    obtain ⟨m, hm⟩ := (FS.isDir_iff fs1 _).1 hdir1
    rw [h6] at hm
    by_cases hany : dirs.any (fun d => Key.above (resolve d) (resolve fm.RootDir ++ t)) = true
    · simp [hany] at hm
    · simp only [hany, Bool.false_eq_true, if_false] at hm
      obtain ⟨d, hd, hres⟩ := h4 t ht ((FS.isDir_iff fs _).2 ⟨m, hm⟩)
      apply hany
      rw [List.any_eq_true]
      exact ⟨d, hd, by rw [hres, Key.above_iff]; exact ⟨[], by simp⟩⟩

theorem deleteSubDirs_keeps_root_witness :
    testTreeFS.WF ∧
    (NewFileMover "tmp".toList).deleteSubDirs 4 testTreeFS =
      some (⟨[([], .dir .rwx), (["tmp".toList], .dir .rwx),
        (["tmp".toList, "root1.txt".toList], .file "test content".toList .rw),
        (["tmp".toList, "root2.txt".toList], .file "test content".toList .rw)]⟩, none) ∧
    ∃ dirs, (NewFileMover "tmp".toList).collectDirs 4 testTreeFS =
        some ((testTreeFS, dirs), none) ∧
      (∀ d ∈ dirs, resolve d ≠ resolve "tmp".toList) ∧
      ∀ t, t ≠ [] →
        FS.isDir ⟨[([], .dir .rwx), (["tmp".toList], .dir .rwx),
          (["tmp".toList, "root1.txt".toList], .file "test content".toList .rw),
          (["tmp".toList, "root2.txt".toList], .file "test content".toList .rw)]⟩
          (resolve "tmp".toList ++ t) = false := by
  have hwf : testTreeFS.WF := by decide
  have hrun : (NewFileMover "tmp".toList).deleteSubDirs 4 testTreeFS =
      some (⟨[([], .dir .rwx), (["tmp".toList], .dir .rwx),
        (["tmp".toList, "root1.txt".toList], .file "test content".toList .rw),
        (["tmp".toList, "root2.txt".toList], .file "test content".toList .rw)]⟩, none) := by
    decide!
  obtain ⟨dirs, h1, _, h3, _, _, _, _, h8⟩ :=
    deleteSubDirs_keeps_root (NewFileMover "tmp".toList) 4 testTreeFS _ hwf hrun
  exact ⟨hwf, hrun, dirs, h1, h3, h8⟩

/-- C9, at a tree with a file left in a subdirectory: `root/sub/a.txt` exists when
`deleteSubDirs` runs, `deleteSubDirs` returns nil, and afterwards neither the file nor
its directory exists. -/
theorem deleteSubDirs_swallows_leftover_file :
    collisionFS.lookup ["root".toList, "sub".toList, "a.txt".toList] =
      some (.file "S".toList .rw) ∧
    ((NewFileMover "root".toList).deleteSubDirs 3 collisionFS).map
        (fun x => (x.2, x.1.lookup ["root".toList, "sub".toList, "a.txt".toList],
          x.1.lookup ["root".toList, "sub".toList])) =
      some (none, none, none) := by
  decide!

/-- C9, as amended. On a well-formed state in which `os.Lstat` finds the root and every
directory at or below it may be read, written and searched, `deleteSubDirs` (with fuel
beyond the depth of the tree) returns nil whether or not files are left in the
subdirectories, and afterwards: a regular file that was left in a subdirectory does not
exist, and neither does the directory it was in; every directory that was strictly
below the root is gone with everything at or below it; and nothing exists two or more
levels below the root. -/
theorem deleteSubDirs_removes_leftover_files (fm : FileMover) (fuel : Nat) (fs : FS)
    (info : FileInfo) (hwf : fs.WF) (hroot : os.Lstat fs fm.RootDir = .ok info)
    (hperm : ∀ e ∈ fs.nodes, Key.above (resolve fm.RootDir) e.1 = true → e.2.permissive = true)
    (hfuel : ∀ e ∈ fs.nodes, e.1.length < (resolve fm.RootDir).length + fuel) :
    ∃ fs1, fm.deleteSubDirs fuel fs = some (fs1, none) ∧
      (∀ t content mode, 2 ≤ t.length →
        fs.lookup (resolve fm.RootDir ++ t) = some (.file content mode) →
        fs1.lookup (resolve fm.RootDir ++ t) = none ∧
          fs1.lookup (resolve fm.RootDir ++ t.dropLast) = none) ∧
      (∀ t, t ≠ [] → fs.isDir (resolve fm.RootDir ++ t) = true →
        ∀ u, fs1.lookup (resolve fm.RootDir ++ (t ++ u)) = none) ∧
      (∀ t, 2 ≤ t.length → fs1.lookup (resolve fm.RootDir ++ t) = none) := by
  obtain ⟨fs1, h⟩ := FileMover.deleteSubDirs_total fm fuel fs hwf info hroot
    (fun t m hl => by
      have := hperm _ (FS.lookup_some_mem fs _ _ hl) (by rw [Key.above_iff]; exact ⟨t, rfl⟩)
      simpa [Node.permissive, and_assoc] using this)
    (fun u hl => by
      cases hn : fs.lookup (resolve fm.RootDir ++ u) with
      | none => exact absurd hn hl
      | some n =>
        have := hfuel _ (FS.lookup_some_mem fs _ n hn)
        simp only [List.length_append] at this
        omega)
  obtain ⟨dirs, _, _, _, h4, _, h6⟩ := FileMover.deleteSubDirs_spec fm fuel fs fs1 hwf h
  have hgone : ∀ t, t ≠ [] → fs.isDir (resolve fm.RootDir ++ t) = true →
      ∀ u, fs1.lookup (resolve fm.RootDir ++ (t ++ u)) = none := by
    intro t ht hdir u
    obtain ⟨d, hd, hres⟩ := h4 t ht hdir
    have : dirs.any (fun d => Key.above (resolve d) (resolve fm.RootDir ++ (t ++ u))) = true := by
      rw [List.any_eq_true]
      exact ⟨d, hd, by rw [hres, Key.above_iff]; exact ⟨u, by simp⟩⟩
    rw [h6]
    simp [this]
  have hdeep : ∀ t, 2 ≤ t.length → fs1.lookup (resolve fm.RootDir ++ t) = none := by
    intro t ht
    cases hn : fs.lookup (resolve fm.RootDir ++ t) with
    | none => rw [h6, hn]; simp
    | some n =>
      cases t with
      | nil => simp at ht
      | cons a t =>
        have ht1 : t ≠ [] := by
          intro h0
          rw [h0] at ht
          simp at ht
        have hdir := FS.WF.isDir_above fs hwf (resolve fm.RootDir ++ [a]) t ht1 (by
          rw [List.append_assoc, List.singleton_append, hn]; simp)
        exact hgone [a] (by simp) hdir t
  refine ⟨fs1, h, ?_, hgone, hdeep⟩
  intro t content mode ht hfile
  refine ⟨hdeep t ht, ?_⟩
  have htne : t ≠ [] := by
    intro h0
    rw [h0] at ht
    simp at ht
  have hpar := FS.WF.parent_isDir fs hwf (resolve fm.RootDir ++ t) (by simp [htne])
    (by rw [hfile]; simp)
  rw [List.dropLast_append_of_ne_nil _ htne] at hpar
  have hdl : t.dropLast ≠ [] := by
    intro h0
    have := congrArg List.length h0
    simp only [List.length_dropLast, List.length_nil] at this
    omega
  have := hgone t.dropLast hdl hpar []
  rwa [List.append_nil] at this

theorem deleteSubDirs_removes_leftover_files_witness :
    testTreeFS.WF ∧
    os.Lstat testTreeFS (NewFileMover "tmp".toList).RootDir = .ok ⟨"tmp".toList, true⟩ ∧
    testTreeFS.lookup ["tmp".toList, "subdir1".toList, "file1.txt".toList] =
      some (.file "test content".toList .rw) ∧
    ∃ fs1, (NewFileMover "tmp".toList).deleteSubDirs 4 testTreeFS = some (fs1, none) ∧
      fs1.lookup ["tmp".toList, "subdir1".toList, "file1.txt".toList] = none ∧
      fs1.lookup ["tmp".toList, "subdir1".toList] = none ∧
      fs1.lookup ["tmp".toList, "subdir2".toList] = none := by
  obtain ⟨fs1, h1, h2, h3, _⟩ :=
    deleteSubDirs_removes_leftover_files (NewFileMover "tmp".toList) 4 testTreeFS
      ⟨"tmp".toList, true⟩ (by decide) (by rfl) (by decide) (by decide)
  have hfile := h2 ["subdir1".toList, "file1.txt".toList] "test content".toList .rw
    (by decide) (by decide)
  have hdir := h3 ["subdir2".toList] (by decide) (by decide) []
  exact ⟨by decide, by rfl, by decide, fs1, h1, hfile.1, hfile.2, hdir⟩
